import Mathlib

/-!
Verification of the Connect-4 decision engine (groups/Magnus_Carlsen/policy.py).

The policy code (class Node and class Aha) is embedded shallowly below.
The board-state collaborator (connect4.connect_state.ConnectState) is not part
of the policy source; it is modelled from the spec as an abstract interface
(structure Game) together with one concrete instance (namespace C4) for the
standard 6 by 7 Connect-4 board that the repository plays on.

Floating-point values of the Python code are modelled by exact rationals.
The one exception is the UCB1 exploration term c * sqrt(ln N / n), which in
the code is computed with float transcendental functions; it is kept as an
abstract parameter (explore : Nat -> Nat -> Rat) of the search, and every
theorem about the search below holds for every value of that parameter.

Randomness: the policy code draws from numpy generators.  Each generator is
modelled as a stream of naturals (Nat -> Nat) plus a running counter; a
uniform choice from a list xs consumes one draw k and picks xs[k mod |xs|].
The policy-owned generator self.rng is the stream named sigma below; the
fresh generators created inside Node.best_child (np.random.default_rng() at
the call site of rng.choice) are modelled by a second, independent stream
named eta.
-/

/-- A board is the row-major flattening of the 6 x 7 numpy array: entry
r * 7 + c is row r (row 0 on top), column c; cells hold -1, 0 or 1. -/
abbrev Board := List Int

/-- Position key used by the Q table: tuple(board.flatten()), i.e. the
flattened board itself. -/
abbrev Key := List Int

/-- The Q table self.Q: a finite map from (position key, action) to a value,
in Python a dict iterated in insertion order; modelled as an association
list in that order. -/
abbrev QTable := List ((Key × Nat) × ℚ)

/-- Modelled from the spec: the interface of the external board-state
collaborator ConnectState (spec section 4.1), split into its board-only
operations.  A ConnectState is a pair of a board and the player to move;
transition(col) drops the mover's piece and switches the mover. -/
structure Game where
  freeCols : Board → List Nat
  applicable : Board → Nat → Bool
  drop : Board → Int → Nat → Board
  winner : Board → Int
  isFinal : Board → Bool

namespace C4

/-- Modelled from the spec: cell access of the external 6 x 7 board. -/
def cell (b : Board) (r c : Nat) : Int := b.getD (r * 7 + c) 0

/-- Modelled from the spec: get_free_cols of the external collaborator —
the columns whose top cell is empty (the driver scripts test s[0, c] == 0). -/
def freeCols (b : Board) : List Nat :=
  (List.range 7).filter (fun c => cell b 0 c == 0)

/-- Modelled from the spec: is_applicable of the external collaborator —
the column index is in range and the column is not full. -/
def applicable (b : Board) (c : Nat) : Bool :=
  decide (c < 7) && (cell b 0 c == 0)

/-- The lowest empty row of a column (row 5 is the bottom), if any. -/
def dropRow (b : Board) (c : Nat) : Option Nat :=
  (List.range 6).reverse.find? (fun r => cell b r c == 0)

/-- Modelled from the spec: the board part of transition(col) — the mover's
piece falls to the lowest empty cell of the column. -/
def drop (b : Board) (p : Int) (c : Nat) : Board :=
  match dropRow b c with
  | some r => b.set (r * 7 + c) p
  | none => b

/-- All four-cell alignment windows of the 6 x 7 grid, as (row, column)
quadruples: horizontal, vertical and the two diagonal directions. -/
def windows : List (List (Nat × Nat)) :=
  ((List.range 6).flatMap fun r => (List.range 4).map fun c =>
    (List.range 4).map fun i => (r, c + i)) ++
  ((List.range 3).flatMap fun r => (List.range 7).map fun c =>
    (List.range 4).map fun i => (r + i, c)) ++
  ((List.range 3).flatMap fun r => (List.range 4).map fun c =>
    (List.range 4).map fun i => (r + i, c + i)) ++
  ((List.range 3).flatMap fun r => (List.range 4).map fun c =>
    (List.range 4).map fun i => (r + i, c + 3 - i))

/-- Does player p own four aligned cells? -/
def hasLine (b : Board) (p : Int) : Bool :=
  windows.any fun w => w.all fun rc => cell b rc.1 rc.2 == p

/-- Modelled from the spec: get_winner of the external collaborator —
the winning player, or 0 when there is no winner (draw or game not over). -/
def winner (b : Board) : Int :=
  if hasLine b 1 then 1 else if hasLine b (-1) then -1 else 0

/-- Modelled from the spec: is_final of the external collaborator — someone
has won, or the board is full. -/
def isFinal (b : Board) : Bool :=
  !(winner b == 0) || (freeCols b).isEmpty

end C4

/-- The concrete Connect-4 instance of the board interface. -/
def connect4 : Game :=
  { freeCols := C4.freeCols
    applicable := C4.applicable
    drop := C4.drop
    winner := C4.winner
    isFinal := C4.isFinal }

/-- The empty starting board. -/
def emptyBoard : Board := List.replicate 42 0

/-- Q_table.get((s_key, action), 0.5): association-list lookup with the lazy
neutral prior 0.5 (policy.py lines 72 and 319). -/
def qGet (Q : QTable) (k : Key × Nat) : ℚ :=
  match Q.find? (fun kv => kv.1 == k) with
  | some kv => kv.2
  | none => 1 / 2

/-- Dict assignment self.Q[(s_key, a)] = v: replace the first binding of the
key, or append a new binding (Python dicts keep insertion order). -/
def qSet (Q : QTable) (k : Key × Nat) (v : ℚ) : QTable :=
  match Q with
  | [] => [(k, v)]
  | kv :: rest => if kv.1 == k then (k, v) :: rest else kv :: qSet rest k v

/-- The incremental Q-learning update of policy.py line 321:
new = old + alpha * (r - old). -/
def qUpdate (old r alpha : ℚ) : ℚ := old + alpha * (r - old)

/-- One recorded experience entry (s_key, parent_action, reward) of _mcts. -/
abbrev Experience := Key × Nat × ℚ

/-- Applying the recorded experiences to the Q table
(policy.py lines 318-321). -/
def applyExperience (alpha : ℚ) (Q : QTable) (es : List Experience) : QTable :=
  es.foldl (fun q e => qSet q (e.1, e.2.1) (qUpdate (qGet q (e.1, e.2.1)) e.2.2 alpha)) Q

/-- Aha._winning_move (policy.py lines 188-201): scan the free columns in
order; return the first applicable column whose transition (a drop by the
state's mover sp) has winner equal to player p.  In act both sp and p are
the current player. -/
def winning_move (G : Game) (b : Board) (sp p : Int) : Option Nat :=
  (G.freeCols b).findSome? fun col =>
    if G.applicable b col && (G.winner (G.drop b sp col) == p) then some col else none

/-- Aha._block_enemy (policy.py lines 203-218): simulate the enemy -p moving
first from the same board; return the first free column by which the enemy
would win immediately. -/
def block_enemy (G : Game) (b : Board) (p : Int) : Option Nat :=
  (G.freeCols b).findSome? fun col =>
    if G.applicable b col && (G.winner (G.drop b (-p) col) == (-p)) then some col else none

/-- One uniform draw from a list: index stream k mod length (model of
rng.choice(xs)); returns the default on an empty list, a case the code
always guards against. -/
def pickFrom (xs : List Nat) (draw : Nat) : Nat :=
  xs.getD (draw % xs.length) 0

/-- The random-playout loop of Aha._rollout (policy.py lines 233-240),
driven by the policy-owned stream sigma with counter k; fuel bounds the
loop (one free cell is filled per step, so board length + 1 suffices for
the concrete game).  Returns the terminal board and the new counter. -/
def rolloutLoop (G : Game) (sigma : Nat → Nat) :
    Nat → Board → Int → Nat → Board × Nat
  | 0, b, _, k => (b, k)
  | fuel + 1, b, p, k =>
    if G.isFinal b then (b, k)
    else
      let free := G.freeCols b
      if free.isEmpty then (b, k)
      else rolloutLoop G sigma fuel (G.drop b p (pickFrom free (sigma k))) (-p) (k + 1)

/-- Aha._rollout (policy.py lines 223-247): play uniformly random legal
moves to the end and score the outcome from the root player's perspective:
1 for a root-player win, 1/2 for a draw, 0 otherwise. -/
def rollout (G : Game) (sigma : Nat → Nat) (b : Board) (p : Int)
    (rootPlayer : Int) (k : Nat) : ℚ × Nat :=
  let (finalB, k') := rolloutLoop G sigma (b.length + 1) b p k
  let w := G.winner finalB
  (if w == rootPlayer then 1 else if w == 0 then 1 / 2 else 0, k')

/-- One vertex of the MCTS tree (class Node, policy.py lines 11-46), stored
in an arena; parent and children are arena indices, parent_action is the
incoming move. -/
structure MNode where
  board : Board
  player : Int
  parent : Option Nat
  parentAction : Option Nat
  children : List (Nat × Nat)
  visits : Nat
  value : ℚ
  untried : List Nat
deriving DecidableEq, Inhabited

/-- Node.__init__: fresh node with untried_actions = state.get_free_cols(). -/
def mkNode (G : Game) (b : Board) (p : Int) (parent : Option Nat)
    (parentAction : Option Nat) : MNode :=
  { board := b, player := p, parent := parent, parentAction := parentAction
    children := [], visits := 0, value := 0, untried := G.freeCols b }

/-- The search tree: an append-only arena of nodes, the root at index 0. -/
abbrev Arena := List MNode

/-- A selection score as compared by best_child: minus infinity is the
initial best_score, val q an ordinary float score, inf the score of a
never-visited child (spec: a child with zero visits has ucb1 = +infinity). -/
inductive Score where
  | ninf : Score
  | val : ℚ → Score
  | inf : Score
deriving DecidableEq

/-- Float comparison score > best_score. -/
def Score.gtB : Score → Score → Bool
  | val a, val b => decide (b < a)
  | val _, ninf => true
  | inf, ninf => true
  | inf, val _ => true
  | _, _ => false

/-- Float comparison score == best_score. -/
def Score.beq : Score → Score → Bool
  | val a, val b => a == b
  | inf, inf => true
  | ninf, ninf => true
  | _, _ => false

/-- The blended score of one already-created child in Node.best_child
(policy.py lines 69-90): prior is Q(s, a) with lazy default 1/2, the UCB1
term is value/visits + explore(parent visits, child visits), where explore
abstracts the float term c * sqrt(ln N / n); a never-visited child scores
plus infinity. -/
def childScore (Q : QTable) (beta : ℚ) (explore : Nat → Nat → ℚ)
    (parent : MNode) (action : Nat) (child : MNode) : Score :=
  let prior := qGet Q (parent.board, action)
  if child.visits > 0 then
    Score.val ((1 - beta) * prior +
      beta * (child.value / child.visits + explore parent.visits child.visits))
  else Score.inf

/-- The accumulation loop of Node.best_child (policy.py lines 62-97):
fold over the children in insertion order keeping best_score and the list
best_nodes of children attaining it. -/
def bestChildList (Q : QTable) (beta : ℚ) (explore : Nat → Nat → ℚ)
    (parent : MNode) (arena : Arena) : List Nat :=
  (parent.children.foldl
    (fun acc ac =>
      let sc := childScore Q beta explore parent ac.1 (arena.getD ac.2 default)
      if sc.gtB acc.1 then (sc, [ac.2])
      else if sc.beq acc.1 then (acc.1, acc.2 ++ [ac.2])
      else acc)
    (Score.ninf, ([] : List Nat))).2

/-- Node.best_child's final line: a uniform tie-break draw from best_nodes
taken from a fresh generator, modelled by the independent stream eta
(np.random.default_rng().choice(best_nodes), policy.py line 100). -/
def best_child (Q : QTable) (beta : ℚ) (explore : Nat → Nat → ℚ)
    (parent : MNode) (arena : Arena) (draw : Nat) : Nat :=
  pickFrom (bestChildList Q beta explore parent arena) draw

/-- The selection loop of _mcts (policy.py lines 277-282): descend while the
node is non-final and fully expanded, consuming one eta draw per step; fuel
bounds the loop (indices strictly increase, see the invariants below).
Returns the selected index and the new eta counter. -/
def selectLoop (G : Game) (Q : QTable) (beta : ℚ) (explore : Nat → Nat → ℚ)
    (arena : Arena) (eta : Nat → Nat) :
    Nat → Nat → Nat → Nat × Nat
  | 0, idx, t => (idx, t)
  | fuel + 1, idx, t =>
    let node := arena.getD idx default
    if !G.isFinal node.board && node.untried.isEmpty then
      selectLoop G Q beta explore arena eta fuel
        (best_child Q beta explore node arena (eta t)) (t + 1)
    else (idx, t)

/-- The expansion step of _mcts (policy.py lines 286-293): if the selected
node is non-final and has untried actions, draw one with the policy-owned
stream, move it from untried to children, and append the new child node.
Returns the arena, the node to roll out from, and the new sigma counter. -/
def expand (G : Game) (arena : Arena) (idx : Nat) (sigma : Nat → Nat)
    (k : Nat) : Arena × Nat × Nat :=
  let node := arena.getD idx default
  if !G.isFinal node.board && !node.untried.isEmpty then
    let a := pickFrom node.untried (sigma k)
    let childBoard := G.drop node.board node.player a
    let ci := arena.length
    let node' := { node with untried := node.untried.erase a
                             children := node.children ++ [(a, ci)] }
    let child := mkNode G childBoard (-node.player) (some idx) (some a)
    (arena.set idx node' ++ [child], ci, k + 1)
  else (arena, idx, k)

/-- The backpropagation walk of _mcts (policy.py lines 304-314): climb the
parent chain incrementing visits and adding the reward, recording one
experience (parent key, incoming action, reward) per edge; fuel bounds the
walk (parent indices strictly decrease). -/
def backprop : Nat → Arena → Nat → ℚ → List Experience → Arena × List Experience
  | 0, arena, _, _, exp => (arena, exp)
  | fuel + 1, arena, idx, r, exp =>
    let node := arena.getD idx default
    let arena' := arena.set idx { node with visits := node.visits + 1, value := node.value + r }
    match node.parent with
    | none => (arena', exp)
    | some p =>
      backprop fuel arena' p r
        (exp ++ [((arena.getD p default).board, node.parentAction.getD 0, r)])

/-- The in-flight state of one _mcts episode: the arena, the recorded
experiences, and the two stream counters. -/
structure MState where
  arena : Arena
  exp : List Experience
  k : Nat
  t : Nat
deriving Inhabited

/-- One iteration of the _mcts loop (policy.py lines 271-314): selection,
expansion, rollout, backpropagation. -/
def mctsIter (G : Game) (Q : QTable) (beta : ℚ) (explore : Nat → Nat → ℚ)
    (rootPlayer : Int) (sigma eta : Nat → Nat) (st : MState) : MState :=
  let (selIdx, t') := selectLoop G Q beta explore st.arena eta
    (st.arena.length + 1) 0 st.t
  let (arena₂, nodeIdx, k') := expand G st.arena selIdx sigma st.k
  let node := arena₂.getD nodeIdx default
  let (reward, k'') := rollout G sigma node.board node.player rootPlayer k'
  let (arena₃, exp') := backprop (arena₂.length + 1) arena₂ nodeIdx reward st.exp
  { arena := arena₃, exp := exp', k := k'', t := t' }

/-- The arena at the start of an episode: only the root node. -/
def mctsInit (G : Game) (b : Board) (p : Int) : MState :=
  { arena := [mkNode G b p none none], exp := [], k := 0, t := 0 }

/-- The first n iterations of one _mcts episode. -/
def mctsRun (G : Game) (Q : QTable) (beta : ℚ) (explore : Nat → Nat → ℚ)
    (b : Board) (p : Int) (sigma eta : Nat → Nat) : Nat → MState
  | 0 => mctsInit G b p
  | n + 1 => mctsIter G Q beta explore p sigma eta
      (mctsRun G Q beta explore b p sigma eta n)

/-- The selection-independent remainder of one _mcts iteration (expansion,
rollout, backpropagation), taking the already-selected node index and the
new tie-break counter; mctsIter is definitionally this applied to the
selection loop's result. -/
def mctsIterAt (G : Game) (rootPlayer : Int) (sigma : Nat → Nat) (st : MState)
    (selIdx t' : Nat) : MState :=
  let (arena₂, nodeIdx, k') := expand G st.arena selIdx sigma st.k
  let node := arena₂.getD nodeIdx default
  let (reward, k'') := rollout G sigma node.board node.player rootPlayer k'
  let (arena₃, exp') := backprop (arena₂.length + 1) arena₂ nodeIdx reward st.exp
  { arena := arena₃, exp := exp', k := k'', t := t' }

/-- max(root.children.values(), key=visits).parent_action: the first child
attaining the maximal visit count, in insertion order (policy.py line 335). -/
def argmaxVisits (arena : Arena) : List (Nat × Nat) → Nat
  | [] => 0
  | c :: rest =>
    (rest.foldl
      (fun best ac =>
        if (arena.getD ac.2 default).visits > (arena.getD best.2 default).visits
        then ac else best) c).1

/-- Aha._mcts (policy.py lines 252-336): run the configured number of
simulations, apply the recorded experiences to the Q table, and return the
most-visited root action (first free column if the root has no children)
together with the updated table. -/
def mcts (G : Game) (Q : QTable) (sims : Nat) (alpha beta : ℚ)
    (explore : Nat → Nat → ℚ) (sigma eta : Nat → Nat)
    (b : Board) (p : Int) : Nat × QTable :=
  let st := mctsRun G Q beta explore b p sigma eta sims
  let Q' := applyExperience alpha Q st.exp
  let root := st.arena.getD 0 default
  if root.children.isEmpty then ((G.freeCols b).headD 0, Q')
  else (argmaxVisits st.arena root.children, Q')

/-- The candidate list of act's direct Q-lookup stage (policy.py line 382):
the (action, value) pairs of all stored entries whose key is the current
position key, in table order. -/
def qCandidates (Q : QTable) (key : Key) : List (Nat × ℚ) :=
  (Q.filter (fun kv => kv.1.1 == key)).map (fun kv => (kv.1.2, kv.2))

/-- Act's direct Q-lookup stage (policy.py lines 380-391): sort the
candidates by value in descending order, take the single top action, and
return it only if it is currently legal; otherwise the stage yields nothing
and act falls through to MCTS.  Python's list.sort is stable, and a stable
sort under a total preorder has a unique result, so the stable insertion
sort used here returns exactly the list the code computes. -/
def qStage (Q : QTable) (key : Key) (free : List Nat) (app : Nat → Bool) :
    Option Nat :=
  match List.insertionSort (fun x y => y.2 ≤ x.2) (qCandidates Q key) with
  | [] => none
  | (a, _) :: _ => if free.contains a && app a then some a else none

/-- The piece-count parity rule of act (policy.py lines 354-356): red (-1)
moves when the counts are equal, yellow (1) otherwise. -/
def currentPlayer (s : Board) : Int :=
  let numRed := s.countP (fun x => x == -1)
  let numYellow := s.countP (fun x => x == 1)
  if numRed == numYellow then -1 else 1

/-- The legality re-check act performs on a proposed move before returning
it (policy.py lines 372 and 377: proposed, in the free list, applicable). -/
def legalize (free : List Nat) (app : Nat → Bool) : Option Nat → Option Nat
  | none => none
  | some w => if free.contains w && app w then some w else none

/-- Aha.act (policy.py lines 340-394): derive the mover by parity; return 0
on a full board; take the single free column when only one exists; try the
immediate win, the immediate block, and the direct Q lookup in that order,
each re-checked for legality; otherwise run one MCTS episode. -/
def act (G : Game) (sims : Nat) (alpha beta : ℚ) (explore : Nat → Nat → ℚ)
    (Q : QTable) (sigma eta : Nat → Nat) (s : Board) : Nat :=
  let p := currentPlayer s
  let free := G.freeCols s
  if free.isEmpty then 0
  else if free.length == 1 then free.headD 0
  else
    match legalize free (G.applicable s) (winning_move G s p p) with
    | some w => w
    | none =>
      match legalize free (G.applicable s) (block_enemy G s p) with
      | some bl => bl
      | none =>
        match qStage Q s free (G.applicable s) with
        | some a => a
        | none => (mcts G Q sims alpha beta explore sigma eta s p).1


/-- The sum of the visit counts of the root's children. -/
def VisitSum (arena : Arena) : Nat :=
  ((arena.getD 0 default).children.map
    (fun ac => (arena.getD ac.2 default).visits)).sum

/-- The parent chain climbed by backprop, with the same fuel discipline:
fuel 0 visits nothing, otherwise the node itself followed by the chain of
its parent. -/
def chain (arena : Arena) : Nat → Nat → List Nat
  | 0, _ => []
  | fuel + 1, idx =>
    match (arena.getD idx default).parent with
    | none => [idx]
    | some p => idx :: chain arena fuel p

/-- The board-collaborator contract that a board without legal moves is
terminal (a full board is a draw); it holds for the concrete game. -/
def NoStuck (G : Game) : Prop :=
  ∀ b, G.isFinal b = false → G.freeCols b ≠ []

/-- Structural invariants of the search arena, maintained by every _mcts
iteration and also inside one iteration: the root is index 0 and
parentless; every other node has a parent of smaller index and appears in
that parent's children; children indices increase, are in range, distinct,
and doubly linked with parent and parent_action; and a fully expanded
non-final node has at least one child. -/
structure WF (G : Game) (arena : Arena) : Prop where
  nonempty : arena ≠ []
  rootParent : (arena.getD 0 default).parent = none
  parentIsSome : ∀ i, 0 < i → i < arena.length →
    (arena.getD i default).parent ≠ none
  parentSpec : ∀ i p, i < arena.length → (arena.getD i default).parent = some p →
    p < i ∧ ((arena.getD i default).parentAction.getD 0, i) ∈ (arena.getD p default).children
  childRange : ∀ i ac, i < arena.length → ac ∈ (arena.getD i default).children →
    i < ac.2 ∧ ac.2 < arena.length
  childParent : ∀ i ac, i < arena.length → ac ∈ (arena.getD i default).children →
    (arena.getD ac.2 default).parent = some i
  childNodup : ∀ i, i < arena.length →
    ((arena.getD i default).children.map Prod.snd).Nodup
  fullNonempty : ∀ i, i < arena.length → G.isFinal (arena.getD i default).board = false →
    (arena.getD i default).untried = [] → (arena.getD i default).children ≠ []

/-- The visit invariant restored by the end of every _mcts iteration: every
node recorded as a child has been visited at least once (a freshly expanded
child is backpropagated in the same iteration that created it). -/
def AllVisited (arena : Arena) : Prop :=
  ∀ i ac, i < arena.length → ac ∈ (arena.getD i default).children →
    1 ≤ (arena.getD ac.2 default).visits

/-- Two arenas with the same length and the same tree structure (only
visit counts and accumulated values may differ), as left by backprop. -/
def SameStructure (a1 a2 : Arena) : Prop :=
  a2.length = a1.length ∧
  ∀ j, (a2.getD j default).board = (a1.getD j default).board ∧
    (a2.getD j default).player = (a1.getD j default).player ∧
    (a2.getD j default).parent = (a1.getD j default).parent ∧
    (a2.getD j default).parentAction = (a1.getD j default).parentAction ∧
    (a2.getD j default).children = (a1.getD j default).children ∧
    (a2.getD j default).untried = (a1.getD j default).untried

/-- A concrete stream standing in for the seeded policy-owned generator in
the episodes below: each iteration consumes one expansion draw (index 0)
and seven rollout draws steering a quick vertical four, so every rollout
ends after seven plies. -/
def sigma0 : Nat → Nat := fun k => [0, 1, 2, 1, 5, 1, 2, 1].getD (k % 8) 0

/-- One possible entropy stream feeding the fresh tie-break generators. -/
def etaA : Nat → Nat := fun _ => 0

/-- A second entropy stream for the fresh tie-break generators. -/
def etaB : Nat → Nat := fun _ => 1

/-- A concrete placeholder value of the abstract exploration term, used
only to name concrete episode states. -/
def explore0 : Nat → Nat → ℚ := fun _ _ => 0

/-- The episode state after the first 7 of 8 simulations from the empty
board under the stream sigma0: the root is fully expanded, its 7 children
each have one visit, and all seven rollout rewards are 0, so at iteration 8
best_child sees a seven-way tie; no tie-break draw has been consumed yet.
The first 7 iterations never reach best_child, so this state does not
depend on the exploration term or on the entropy stream. -/
def state7 : MState :=
  mctsRun connect4 [] (7 / 10) explore0 emptyBoard (-1) sigma0 etaA 7

/-- A board whose column 0 is full (alternating pieces, no winner) and all
other columns are empty; red is to move. -/
def cb1 : Board :=
  [1, 0, 0, 0, 0, 0, 0,
   -1, 0, 0, 0, 0, 0, 0,
   1, 0, 0, 0, 0, 0, 0,
   -1, 0, 0, 0, 0, 0, 0,
   1, 0, 0, 0, 0, 0, 0,
   -1, 0, 0, 0, 0, 0, 0]

/-- A Q table for the position key cb1 holding a high-valued entry for the
full column 0 and a lower-valued entry for the legal column 1. -/
def Qc1 : QTable := [((cb1, 0), 9 / 10), ((cb1, 1), 1 / 5)]

/-- A board where red, to move, has three pieces stacked in column 0 and
wins by dropping there. -/
def wb2 : Board :=
  [0, 0, 0, 0, 0, 0, 0,
   0, 0, 0, 0, 0, 0, 0,
   0, 0, 0, 0, 0, 0, 0,
   -1, 0, 0, 0, 0, 0, 0,
   -1, 1, 0, 0, 0, 0, 0,
   -1, 1, 0, 1, 0, 0, 0]

/-- A board where red, to move, cannot win at once but yellow threatens a
vertical four in column 2; red must block at column 2. -/
def wb3 : Board :=
  [0, 0, 0, 0, 0, 0, 0,
   0, 0, 0, 0, 0, 0, 0,
   0, 0, 0, 0, 0, 0, 0,
   0, 0, 1, 0, 0, 0, 0,
   -1, 0, 1, 0, 0, 0, 0,
   -1, 0, 1, 0, 0, 0, -1]

/-- A completely full board: its top row has no empty cell, so there
are no legal moves. -/
def fullBoard : Board :=
  [1, -1, 1, -1, 1, -1, 1,
   -1, 1, -1, 1, -1, 1, -1,
   1, -1, 1, -1, 1, -1, 1,
   -1, 1, -1, 1, -1, 1, -1,
   1, -1, 1, -1, 1, -1, 1,
   -1, 1, -1, 1, -1, 1, -1]

/-- List helper: a findSome? returning some comes from a member on which
the function fires with that value. -/
theorem findSome?_some_spec {α β : Type} {f : α → Option β} {l : List α} {b : β}
    (h : l.findSome? f = some b) : ∃ a ∈ l, f a = some b :=
  List.exists_of_findSome?_eq_some h

/-- List helper: if some member fires, findSome? does not return none. -/
theorem findSome?_ne_none {α β : Type} {f : α → Option β} {l : List α} {a : α}
    (ha : a ∈ l) (hf : f a ≠ none) : l.findSome? f ≠ none := by
  intro h
  exact hf (List.findSome?_eq_none_iff.mp h a ha)

/-- List helper: getD of an index below the length is a member. -/
theorem getD_mem_of_lt {α : Type} {l : List α} {i : Nat} (h : i < l.length) (d : α) :
    l.getD i d ∈ l := by
  rw [List.getD_eq_getElem l d h]
  exact List.getElem_mem h

/-- C6.  The Q-learning update new = old + alpha * (r - old) of policy.py
line 321 is a contraction toward the observed reward: for a learning rate
in (0, 1] the updated value lies between the old value and the reward, it
equals the reward exactly when alpha = 1, equals the old value exactly when
old = reward, and is strictly between them whenever old differs from the
reward and alpha differs from 1. -/
theorem qUpdate_contraction (q r alpha : ℚ) (h0 : 0 < alpha) (h1 : alpha ≤ 1) :
    (min q r ≤ qUpdate q r alpha ∧ qUpdate q r alpha ≤ max q r) ∧
    (alpha = 1 → qUpdate q r alpha = r) ∧
    (q = r → qUpdate q r alpha = q) ∧
    (q ≠ r → alpha ≠ 1 →
      min q r < qUpdate q r alpha ∧ qUpdate q r alpha < max q r) := by
  unfold qUpdate
  rcases le_total q r with hqr | hqr
  · rw [min_eq_left hqr, max_eq_right hqr]
    refine ⟨⟨by nlinarith, by nlinarith⟩, fun h => by rw [h]; ring,
      fun h => by rw [h]; ring, fun hne hα1 => ?_⟩
    have hqr' : q < r := lt_of_le_of_ne hqr hne
    have hα1' : alpha < 1 := lt_of_le_of_ne h1 hα1
    exact ⟨by nlinarith, by nlinarith⟩
  · rw [min_eq_right hqr, max_eq_left hqr]
    refine ⟨⟨by nlinarith, by nlinarith⟩, fun h => by rw [h]; ring,
      fun h => by rw [h]; ring, fun hne hα1 => ?_⟩
    have hqr' : r < q := lt_of_le_of_ne hqr (fun h => hne h.symm)
    have hα1' : alpha < 1 := lt_of_le_of_ne h1 hα1
    exact ⟨by nlinarith, by nlinarith⟩

/-- Witness for C6 at old = 0, reward = 1, alpha = 1/2. -/
theorem qUpdate_contraction_witness :
    (0 < (1 : ℚ)/2 ∧ (1 : ℚ)/2 ≤ 1) ∧
    (min (0 : ℚ) 1 ≤ qUpdate 0 1 (1/2) ∧ qUpdate 0 1 (1/2) ≤ max (0 : ℚ) 1) :=
  ⟨by norm_num, (qUpdate_contraction 0 1 (1/2) (by norm_num) (by norm_num)).1⟩

/-- C7.  Rewards are drawn from {0, 1/2, 1} (Aha._rollout), and any
sequence of Q-updates with such rewards and a learning rate in (0, 1]
keeps a value that starts in [0, 1] inside [0, 1]: the update is a convex
blend of the old estimate and the reward. -/
theorem q_values_bounded :
    (∀ (G : Game) (sigma : Nat → Nat) (b : Board) (p rootPlayer : Int) (k : Nat),
      (rollout G sigma b p rootPlayer k).1 = 0 ∨
      (rollout G sigma b p rootPlayer k).1 = 1/2 ∨
      (rollout G sigma b p rootPlayer k).1 = 1) ∧
    (∀ (q0 : ℚ) (rs : List ℚ) (alpha : ℚ), 0 ≤ q0 → q0 ≤ 1 →
      (∀ r ∈ rs, r = 0 ∨ r = 1/2 ∨ r = 1) → 0 < alpha → alpha ≤ 1 →
      0 ≤ rs.foldl (fun q r => qUpdate q r alpha) q0 ∧
      rs.foldl (fun q r => qUpdate q r alpha) q0 ≤ 1) := by
  constructor
  · intro G sigma b p rootPlayer k
    rcases hro : rolloutLoop G sigma (b.length + 1) b p k with ⟨fb, k2⟩
    unfold rollout
    rw [hro]
    dsimp only
    split
    · exact Or.inr (Or.inr rfl)
    · split
      · exact Or.inr (Or.inl rfl)
      · exact Or.inl rfl
  · intro q0 rs alpha hq0 hq1 hrs ha0 ha1
    induction rs generalizing q0 with
    | nil => exact ⟨hq0, hq1⟩
    | cons r rest ih =>
      have hr : r = 0 ∨ r = 1/2 ∨ r = 1 := hrs r (List.mem_cons_self r rest)
      have hrest : ∀ x ∈ rest, x = 0 ∨ x = 1/2 ∨ x = 1 :=
        fun x hx => hrs x (List.mem_cons_of_mem r hx)
      have hr0 : (0 : ℚ) ≤ r := by rcases hr with h | h | h <;> rw [h] <;> norm_num
      have hr1 : r ≤ 1 := by rcases hr with h | h | h <;> rw [h] <;> norm_num
      have hb : 0 ≤ qUpdate q0 r alpha ∧ qUpdate q0 r alpha ≤ 1 := by
        unfold qUpdate
        constructor <;> nlinarith
      simpa using ih (qUpdate q0 r alpha) hb.1 hb.2 hrest

/-- Witness for C7 at q0 = 1/2, rewards [1, 0, 1/2], alpha = 3/10. -/
theorem q_values_bounded_witness :
    (0 ≤ (1 : ℚ)/2 ∧ (1 : ℚ)/2 ≤ 1 ∧ 0 < (3 : ℚ)/10 ∧ (3 : ℚ)/10 ≤ 1) ∧
    (0 ≤ [1, 0, (1 : ℚ)/2].foldl (fun q r => qUpdate q r (3/10)) (1/2) ∧
      [1, 0, (1 : ℚ)/2].foldl (fun q r => qUpdate q r (3/10)) (1/2) ≤ 1) :=
  ⟨by norm_num,
    q_values_bounded.2 (1/2) [1, 0, 1/2] (3/10) (by norm_num) (by norm_num)
      (by intro r hr; fin_cases hr <;> norm_num) (by norm_num) (by norm_num)⟩

/-- C9.  Requested to decide on a board with no legal move, act returns the
safe default column 0 instead of failing (policy.py lines 362-364); in this
embedding act is a total function, so no exception can escape it. -/
theorem act_full_board (G : Game) (sims : Nat) (alpha beta : ℚ)
    (explore : Nat → Nat → ℚ) (Q : QTable) (sigma eta : Nat → Nat) (s : Board)
    (hfree : G.freeCols s = []) :
    act G sims alpha beta explore Q sigma eta s = 0 := by
  unfold act
  rw [hfree]
  rfl

/-- Witness for C9 on the concrete full board. -/
theorem act_full_board_witness :
    connect4.freeCols fullBoard = [] ∧
    act connect4 150 (3/10) (7/10) explore0 [] sigma0 etaA fullBoard = 0 :=
  ⟨by decide,
    act_full_board connect4 150 (3/10) (7/10) explore0 [] sigma0 etaA fullBoard (by decide)⟩

/-- Helper: what a successful immediate-win scan guarantees (the returned
column is free, applicable, and winning). -/
theorem winning_move_spec {G : Game} {s : Board} {sp p : Int} {w : Nat}
    (h : winning_move G s sp p = some w) :
    w ∈ G.freeCols s ∧ G.applicable s w = true ∧ G.winner (G.drop s sp w) = p := by
  obtain ⟨a, ha, hfa⟩ := findSome?_some_spec h
  by_cases hc : (G.applicable s a && (G.winner (G.drop s sp a) == p)) = true
  · rw [if_pos hc] at hfa
    obtain ⟨h1, h2⟩ := Bool.and_eq_true_iff.mp hc
    cases hfa
    exact ⟨ha, h1, beq_iff_eq.mp h2⟩
  · rw [if_neg hc] at hfa
    cases hfa

/-- Helper: what a successful block scan guarantees. -/
theorem block_enemy_spec {G : Game} {s : Board} {p : Int} {w : Nat}
    (h : block_enemy G s p = some w) :
    w ∈ G.freeCols s ∧ G.applicable s w = true ∧
      G.winner (G.drop s (-p) w) = -p := by
  obtain ⟨a, ha, hfa⟩ := findSome?_some_spec h
  by_cases hc : (G.applicable s a && (G.winner (G.drop s (-p) a) == (-p))) = true
  · rw [if_pos hc] at hfa
    obtain ⟨h1, h2⟩ := Bool.and_eq_true_iff.mp hc
    cases hfa
    exact ⟨ha, h1, beq_iff_eq.mp h2⟩
  · rw [if_neg hc] at hfa
    cases hfa

/-- Helper: the immediate-win scan fails when no free column wins. -/
theorem winning_move_none {G : Game} {s : Board} {sp p : Int}
    (h : ∀ c ∈ G.freeCols s, G.winner (G.drop s sp c) ≠ p) :
    winning_move G s sp p = none := by
  apply List.findSome?_eq_none_iff.mpr
  intro c hc
  have : (G.winner (G.drop s sp c) == p) = false := beq_eq_false_iff_ne.mpr (h c hc)
  rw [if_neg]
  simp [this]

/-- Helper: reduction of act past the trivial guards (at least two legal
moves) to its three-stage cascade. -/
theorem act_reduce (G : Game) (sims : Nat) (alpha beta : ℚ)
    (explore : Nat → Nat → ℚ) (Q : QTable) (sigma eta : Nat → Nat) (s : Board)
    (hie : (G.freeCols s).isEmpty = false)
    (hlen : ((G.freeCols s).length == 1) = false) :
    act G sims alpha beta explore Q sigma eta s =
      (match legalize (G.freeCols s) (G.applicable s)
          (winning_move G s (currentPlayer s) (currentPlayer s)) with
       | some w => w
       | none =>
         match legalize (G.freeCols s) (G.applicable s)
             (block_enemy G s (currentPlayer s)) with
         | some bl => bl
         | none =>
           match qStage Q s (G.freeCols s) (G.applicable s) with
           | some a => a
           | none => (mcts G Q sims alpha beta explore sigma eta s (currentPlayer s)).1) := by
  simp only [act, hie, hlen, Bool.false_eq_true, if_false]

/-- C2.  Whenever some legal move wins at once for the mover, act returns a
winning move: either through the single-move shortcut or through the
immediate-win heuristic (policy.py lines 366-373). -/
theorem act_wins (G : Game) (sims : Nat) (alpha beta : ℚ)
    (explore : Nat → Nat → ℚ) (Q : QTable) (sigma eta : Nat → Nat) (s : Board)
    (happ : ∀ c ∈ G.freeCols s, G.applicable s c = true)
    (hwin : ∃ c ∈ G.freeCols s,
      G.winner (G.drop s (currentPlayer s) c) = currentPlayer s) :
    G.winner (G.drop s (currentPlayer s)
      (act G sims alpha beta explore Q sigma eta s)) = currentPlayer s := by
  obtain ⟨c, hc, hcw⟩ := hwin
  have hne : G.freeCols s ≠ [] := fun h => by rw [h] at hc; exact absurd hc (List.not_mem_nil c)
  have hie : (G.freeCols s).isEmpty = false := by
    rw [List.isEmpty_eq_false]
    exact hne
  by_cases hlen : (G.freeCols s).length = 1
  · obtain ⟨a, hfa⟩ := List.length_eq_one.mp hlen
    have hca : c = a := by rw [hfa] at hc; exact List.mem_singleton.mp hc
    have : act G sims alpha beta explore Q sigma eta s = a := by
      simp only [act, hie, Bool.false_eq_true, if_false, hfa]
      rfl
    rw [this, ← hca]
    exact hcw
  · have hlen' : ((G.freeCols s).length == 1) = false := by
      simpa using hlen
    have hwm : winning_move G s (currentPlayer s) (currentPlayer s) ≠ none := by
      apply findSome?_ne_none hc
      rw [if_pos]
      · exact Option.some_ne_none c
      · rw [happ c hc, beq_iff_eq.mpr hcw]
        rfl
    obtain ⟨w, hw⟩ := Option.ne_none_iff_exists'.mp hwm
    obtain ⟨hwmem, hwapp, hwwin⟩ := winning_move_spec hw
    have hleg : legalize (G.freeCols s) (G.applicable s)
        (winning_move G s (currentPlayer s) (currentPlayer s)) = some w := by
      rw [hw]
      unfold legalize
      dsimp only
      rw [if_pos]
      simp [List.contains, List.elem_eq_true_of_mem hwmem, hwapp, hwmem]
    rw [act_reduce G sims alpha beta explore Q sigma eta s hie hlen', hleg]
    exact hwwin

/-- Witness for C2 on the concrete board wb2 (red wins by dropping in
column 0). -/
theorem act_wins_witness :
    (∃ c ∈ connect4.freeCols wb2,
      connect4.winner (connect4.drop wb2 (currentPlayer wb2) c) = currentPlayer wb2) ∧
    connect4.winner (connect4.drop wb2 (currentPlayer wb2)
      (act connect4 1 (3/10) (7/10) explore0 [] sigma0 etaA wb2)) = currentPlayer wb2 :=
  ⟨by decide,
    act_wins connect4 1 (3/10) (7/10) explore0 [] sigma0 etaA wb2
      (by decide) (by decide)⟩

/-- C3.  With at least two legal moves, no immediate win for the mover, and
exactly one column by which the opponent would win at once, act returns
that blocking column (policy.py lines 375-378). -/
theorem act_blocks (G : Game) (sims : Nat) (alpha beta : ℚ)
    (explore : Nat → Nat → ℚ) (Q : QTable) (sigma eta : Nat → Nat) (s : Board)
    (happ : ∀ c ∈ G.freeCols s, G.applicable s c = true)
    (hlen2 : 2 ≤ (G.freeCols s).length)
    (hnowin : ∀ c ∈ G.freeCols s,
      G.winner (G.drop s (currentPlayer s) c) ≠ currentPlayer s)
    (c0 : Nat) (hc0 : c0 ∈ G.freeCols s)
    (hc0w : G.winner (G.drop s (-(currentPlayer s)) c0) = -(currentPlayer s))
    (huniq : ∀ c ∈ G.freeCols s,
      G.winner (G.drop s (-(currentPlayer s)) c) = -(currentPlayer s) → c = c0) :
    act G sims alpha beta explore Q sigma eta s = c0 := by
  have hne : G.freeCols s ≠ [] := by
    intro h
    rw [h] at hlen2
    exact absurd hlen2 (by norm_num)
  have hie : (G.freeCols s).isEmpty = false := by
    rw [List.isEmpty_eq_false]
    exact hne
  have hlen' : ((G.freeCols s).length == 1) = false := by
    have : (G.freeCols s).length ≠ 1 := by omega
    simpa using this
  have hwm : winning_move G s (currentPlayer s) (currentPlayer s) = none :=
    winning_move_none hnowin
  have hbm : block_enemy G s (currentPlayer s) ≠ none := by
    apply findSome?_ne_none hc0
    rw [if_pos]
    · exact Option.some_ne_none c0
    · rw [happ c0 hc0, beq_iff_eq.mpr hc0w]
      rfl
  obtain ⟨w, hw⟩ := Option.ne_none_iff_exists'.mp hbm
  obtain ⟨hwmem, hwapp, hwwin⟩ := block_enemy_spec hw
  have hwc0 : w = c0 := huniq w hwmem hwwin
  have hleg : legalize (G.freeCols s) (G.applicable s)
      (block_enemy G s (currentPlayer s)) = some w := by
    rw [hw]
    unfold legalize
    dsimp only
    rw [if_pos]
    simp [List.contains, List.elem_eq_true_of_mem hwmem, hwapp, hwmem]
  rw [act_reduce G sims alpha beta explore Q sigma eta s hie hlen', hwm, hleg, hwc0]
  rfl

/-- Witness for C3 on the concrete board wb3 (red must block yellow's
vertical threat in column 2). -/
theorem act_blocks_witness :
    (2 ∈ connect4.freeCols wb3 ∧
      connect4.winner (connect4.drop wb3 (-(currentPlayer wb3)) 2) = -(currentPlayer wb3)) ∧
    act connect4 1 (3/10) (7/10) explore0 [] sigma0 etaA wb3 = 2 :=
  ⟨by decide,
    act_blocks connect4 1 (3/10) (7/10) explore0 [] sigma0 etaA wb3
      (by decide) (by decide) (by decide) 2 (by decide) (by decide) (by decide)⟩

/-- Helper: concrete evaluation of the Q-lookup stage on cb1 with the
table Qc1 (the topmost stored entry is illegal, so the stage yields
nothing). -/
theorem qStage_cb1_eval :
    qStage Qc1 cb1 (connect4.freeCols cb1) (connect4.applicable cb1) = none := by
  have hcand : qCandidates Qc1 cb1 = [(0, 9/10), (1, 1/5)] := by
    unfold qCandidates Qc1
    simp
  have hsort : List.insertionSort (fun x y : Nat × ℚ => y.2 ≤ x.2)
      [(0, 9/10), (1, 1/5)] = [(0, 9/10), (1, 1/5)] := by
    unfold List.insertionSort List.orderedInsert
    norm_num
  unfold qStage
  rw [hcand, hsort]
  decide

/-- C1 counterexample.  On the board cb1 (column 0 full) the Q table holds
a legal entry (action 1, value 1/5) for the position key, act reaches the
direct-lookup stage (no single move, no win, no block), yet the stage
returns nothing: the code sorts ALL stored entries, looks only at the top
one (action 0, value 9/10, illegal), and abandons the stage instead of
filtering to legal actions first. -/
theorem qStage_counterexample :
    qStage Qc1 cb1 (connect4.freeCols cb1) (connect4.applicable cb1) = none ∧
    ((cb1, 1), (1 : ℚ)/5) ∈ Qc1 ∧
    1 ∈ connect4.freeCols cb1 ∧ connect4.applicable cb1 1 = true ∧
    connect4.applicable cb1 0 = false ∧
    2 ≤ (connect4.freeCols cb1).length ∧
    winning_move connect4 cb1 (currentPlayer cb1) (currentPlayer cb1) = none ∧
    block_enemy connect4 cb1 (currentPlayer cb1) = none :=
  ⟨qStage_cb1_eval, by simp [Qc1], by decide, by decide, by decide, by decide,
    by decide, by decide⟩

/-- C1 amended.  The direct Q-lookup stage takes the maximum over ALL
stored entries sharing the key, without filtering to legal actions: when it
returns an action, that action carries a maximal stored value and happens
to be legal; when it returns nothing although entries exist, some entry of
maximal stored value has an illegal action — even if other, legal stored
entries exist. -/
theorem qStage_unfiltered_max (Q : QTable) (key : Key) (free : List Nat)
    (app : Nat → Bool) :
    (∀ a, qStage Q key free app = some a →
      ∃ v, (a, v) ∈ qCandidates Q key ∧
        (∀ bv ∈ qCandidates Q key, bv.2 ≤ v) ∧
        free.contains a = true ∧ app a = true) ∧
    (qStage Q key free app = none →
      qCandidates Q key = [] ∨
        ∃ av ∈ qCandidates Q key, (∀ bv ∈ qCandidates Q key, bv.2 ≤ av.2) ∧
          ¬(free.contains av.1 = true ∧ app av.1 = true)) := by
  cases hms : List.insertionSort (fun x y : Nat × ℚ => y.2 ≤ x.2) (qCandidates Q key) with
  | nil =>
    have hcands : qCandidates Q key = [] := by
      have hperm := List.perm_insertionSort
        (fun x y : Nat × ℚ => y.2 ≤ x.2) (qCandidates Q key)
      rw [hms] at hperm
      exact (List.nil_perm.mp hperm)
    constructor
    · intro a h
      unfold qStage at h
      rw [hms] at h
      cases h
    · intro _
      exact Or.inl hcands
  | cons hd tl =>
    obtain ⟨ca, cv⟩ := hd
    have hperm := List.perm_insertionSort
      (fun x y : Nat × ℚ => y.2 ≤ x.2) (qCandidates Q key)
    rw [hms] at hperm
    have hmem : (ca, cv) ∈ qCandidates Q key :=
      hperm.mem_iff.mp (List.mem_cons_self (ca, cv) tl)
    haveI htot : IsTotal (Nat × ℚ) (fun x y => y.2 ≤ x.2) :=
      ⟨fun a b => le_total b.2 a.2⟩
    haveI htr : IsTrans (Nat × ℚ) (fun x y => y.2 ≤ x.2) :=
      ⟨fun a b c hab hbc => le_trans hbc hab⟩
    have hsorted := List.sorted_insertionSort
      (fun x y : Nat × ℚ => y.2 ≤ x.2) (qCandidates Q key)
    rw [hms] at hsorted
    have hmax : ∀ bv ∈ qCandidates Q key, bv.2 ≤ cv := by
      intro bv hbv
      have hbv' : bv ∈ (ca, cv) :: tl := hperm.mem_iff.mpr hbv
      rcases List.mem_cons.mp hbv' with h | h
      · rw [h]
      · exact (List.pairwise_cons.mp hsorted).1 bv h
    by_cases hok : (free.contains ca && app ca) = true
    · constructor
      · intro a h
        unfold qStage at h
        rw [hms] at h
        dsimp only at h
        rw [if_pos hok] at h
        cases h
        obtain ⟨h1, h2⟩ := Bool.and_eq_true_iff.mp hok
        exact ⟨cv, hmem, hmax, h1, h2⟩
      · intro h
        unfold qStage at h
        rw [hms] at h
        dsimp only at h
        rw [if_pos hok] at h
        cases h
    · constructor
      · intro a h
        unfold qStage at h
        rw [hms] at h
        dsimp only at h
        rw [if_neg hok] at h
        cases h
      · intro _
        refine Or.inr ⟨(ca, cv), hmem, hmax, ?_⟩
        intro hcon
        exact hok (by rw [hcon.1, hcon.2]; rfl)

/-- Witness for C1's amended claim at the concrete input: the stage yields
nothing on cb1/Qc1, so some maximal stored entry is illegal there. -/
theorem qStage_unfiltered_max_witness :
    qStage Qc1 cb1 (connect4.freeCols cb1) (connect4.applicable cb1) = none ∧
    (qCandidates Qc1 cb1 = [] ∨
      ∃ av ∈ qCandidates Qc1 cb1, (∀ bv ∈ qCandidates Qc1 cb1, bv.2 ≤ av.2) ∧
        ¬((connect4.freeCols cb1).contains av.1 = true ∧
          connect4.applicable cb1 av.1 = true)) :=
  ⟨qStage_cb1_eval,
    (qStage_unfiltered_max Qc1 cb1 (connect4.freeCols cb1)
      (connect4.applicable cb1)).2 qStage_cb1_eval⟩

/-- List helper: getD beyond the length is the default. -/
theorem getD_of_ge {α : Type} {l : List α} {j : Nat} (h : l.length ≤ j) (d : α) :
    l.getD j d = d := by
  rw [List.getD_eq_getElem?_getD, List.getElem?_eq_none h, Option.getD_none]

/-- List helper: getD after set at the same in-range index. -/
theorem getD_set_self {α : Type} {l : List α} {i : Nat} (h : i < l.length)
    (x d : α) : (l.set i x).getD i d = x := by
  rw [List.getD_eq_getElem (l.set i x) d (by simpa using h)]
  exact List.getElem_set_self (by simpa using h)

/-- List helper: getD after set at a different index. -/
theorem getD_set_ne {α : Type} {l : List α} {i j : Nat} (h : i ≠ j) (x d : α) :
    (l.set i x).getD j d = l.getD j d := by
  by_cases hj : j < l.length
  · rw [List.getD_eq_getElem (l.set i x) d (by simpa using hj),
      List.getD_eq_getElem l d hj]
    exact List.getElem_set_ne h _
  · have hj' : l.length ≤ j := Nat.le_of_not_lt hj
    rw [getD_of_ge hj' d, getD_of_ge (by simpa using hj') d]

/-- List helper: getD of an append, index inside the first part. -/
theorem getD_append_left {α : Type} {l : List α} {x : α} {j : Nat}
    (h : j < l.length) (d : α) : (l ++ [x]).getD j d = l.getD j d := by
  rw [List.getD_eq_getElem?_getD, List.getD_eq_getElem?_getD,
    List.getElem?_append_left h]

/-- List helper: getD of an append at the old length. -/
theorem getD_append_length {α : Type} (l : List α) (x d : α) :
    (l ++ [x]).getD l.length d = x := by
  rw [List.getD_eq_getElem?_getD, List.getElem?_concat_length, Option.getD_some]

/-- Helper: a uniform pick from a nonempty list is a member. -/
theorem pickFrom_mem {xs : List Nat} (h : xs ≠ []) (draw : Nat) :
    pickFrom xs draw ∈ xs := by
  unfold pickFrom
  exact getD_mem_of_lt (Nat.mod_lt _ (List.length_pos.mpr h)) 0

/-- Helper: the best_child accumulation only collects recorded children. -/
theorem bestChildList_sub (Q : QTable) (beta : ℚ) (explore : Nat → Nat → ℚ)
    (parent : MNode) (arena : Arena) :
    ∀ x ∈ bestChildList Q beta explore parent arena,
      x ∈ parent.children.map Prod.snd := by
  unfold bestChildList
  suffices h : ∀ (l : List (Nat × Nat)) (acc : Score × List Nat) (x : Nat),
      x ∈ (l.foldl (fun acc ac =>
        let sc := childScore Q beta explore parent ac.1 (arena.getD ac.2 default)
        if sc.gtB acc.1 then (sc, [ac.2])
        else if sc.beq acc.1 then (acc.1, acc.2 ++ [ac.2])
        else acc) acc).2 → x ∈ acc.2 ∨ x ∈ l.map Prod.snd by
    intro x hx
    rcases h parent.children (Score.ninf, []) x hx with h' | h'
    · cases h'
    · exact h'
  intro l
  induction l with
  | nil => intro acc x hx; exact Or.inl hx
  | cons ac l ih =>
    intro acc x hx
    rw [List.foldl_cons] at hx
    rcases ih _ x hx with h' | h'
    · dsimp only at h'
      split at h'
      · rcases List.mem_singleton.mp h' with rfl
        exact Or.inr (by simp)
      · split at h'
        · rcases List.mem_append.mp h' with h'' | h''
          · exact Or.inl h''
          · rcases List.mem_singleton.mp h'' with rfl
            exact Or.inr (by simp)
        · exact Or.inl h'
    · exact Or.inr (by simp only [List.map_cons, List.mem_cons]; exact Or.inr h')

/-- Helper: a score computed for a child is never minus infinity. -/
theorem childScore_ne_ninf (Q : QTable) (beta : ℚ) (explore : Nat → Nat → ℚ)
    (parent : MNode) (a : Nat) (child : MNode) :
    childScore Q beta explore parent a child ≠ Score.ninf := by
  unfold childScore
  split <;> simp

/-- Helper: with at least one recorded child the best_child candidate list
is nonempty (the first child always beats the initial minus infinity). -/
theorem bestChildList_ne_nil (Q : QTable) (beta : ℚ) (explore : Nat → Nat → ℚ)
    (parent : MNode) (arena : Arena) (h : parent.children ≠ []) :
    bestChildList Q beta explore parent arena ≠ [] := by
  unfold bestChildList
  obtain ⟨ac, l, hcl⟩ := List.exists_cons_of_ne_nil h
  rw [hcl, List.foldl_cons]
  have hfirst : ((fun (acc : Score × List Nat) (ac : Nat × Nat) =>
      let sc := childScore Q beta explore parent ac.1 (arena.getD ac.2 default)
      if sc.gtB acc.1 then (sc, [ac.2])
      else if sc.beq acc.1 then (acc.1, acc.2 ++ [ac.2])
      else acc) (Score.ninf, []) ac).2 ≠ [] := by
    dsimp only
    have hne := childScore_ne_ninf Q beta explore parent ac.1 (arena.getD ac.2 default)
    have : (childScore Q beta explore parent ac.1 (arena.getD ac.2 default)).gtB Score.ninf = true := by
      cases hsc : childScore Q beta explore parent ac.1 (arena.getD ac.2 default) with
      | ninf => exact absurd hsc hne
      | val q => rfl
      | inf => rfl
    rw [if_pos this]
    simp
  suffices haux : ∀ (l : List (Nat × Nat)) (acc : Score × List Nat), acc.2 ≠ [] →
      (l.foldl (fun acc ac =>
        let sc := childScore Q beta explore parent ac.1 (arena.getD ac.2 default)
        if sc.gtB acc.1 then (sc, [ac.2])
        else if sc.beq acc.1 then (acc.1, acc.2 ++ [ac.2])
        else acc) acc).2 ≠ [] by
    exact haux l _ hfirst
  intro l
  induction l with
  | nil => intro acc h; exact h
  | cons ac l ih =>
    intro acc hacc
    rw [List.foldl_cons]
    apply ih
    dsimp only
    split
    · simp
    · split
      · simp
      · exact hacc

/-- Helper: the selection loop, given enough fuel (indices strictly
increase, so arena length suffices), stops at an in-range node at which the
loop condition fails — a final node or one with untried actions. -/
theorem selectLoop_spec (G : Game) (Q : QTable) (beta : ℚ)
    (explore : Nat → Nat → ℚ) (arena : Arena) (eta : Nat → Nat)
    (hwf : WF G arena) :
    ∀ fuel idx t, idx < arena.length → arena.length - idx < fuel →
      idx ≤ (selectLoop G Q beta explore arena eta fuel idx t).1 ∧
      (selectLoop G Q beta explore arena eta fuel idx t).1 < arena.length ∧
      (!G.isFinal (arena.getD (selectLoop G Q beta explore arena eta fuel idx t).1 default).board &&
        (arena.getD (selectLoop G Q beta explore arena eta fuel idx t).1 default).untried.isEmpty) = false := by
  intro fuel
  induction fuel with
  | zero => intro idx t h1 h2; omega
  | succ fuel ih =>
    intro idx t h1 h2
    by_cases hcond : (!G.isFinal (arena.getD idx default).board &&
        (arena.getD idx default).untried.isEmpty) = true
    · obtain ⟨hfin, hunt⟩ := Bool.and_eq_true_iff.mp hcond
      have hfin' : G.isFinal (arena.getD idx default).board = false := by
        simpa using hfin
      have hunt' : (arena.getD idx default).untried = [] := by
        simpa [List.isEmpty_iff] using hunt
      have hch : (arena.getD idx default).children ≠ [] :=
        hwf.fullNonempty idx h1 hfin' hunt'
      have hbl := bestChildList_ne_nil Q beta explore (arena.getD idx default) arena hch
      have hmem : best_child Q beta explore (arena.getD idx default) arena (eta t) ∈
          bestChildList Q beta explore (arena.getD idx default) arena :=
        pickFrom_mem hbl (eta t)
      have hmem2 := bestChildList_sub Q beta explore (arena.getD idx default) arena _ hmem
      obtain ⟨ac, hac, hac2⟩ := List.mem_map.mp hmem2
      have hrange := hwf.childRange idx ac h1 hac
      have hlt : idx < best_child Q beta explore (arena.getD idx default) arena (eta t) := by
        rw [← hac2]
        exact hrange.1
      have hlen : best_child Q beta explore (arena.getD idx default) arena (eta t) <
          arena.length := by
        rw [← hac2]
        exact hrange.2
      have hstep : selectLoop G Q beta explore arena eta (fuel + 1) idx t =
          selectLoop G Q beta explore arena eta fuel
            (best_child Q beta explore (arena.getD idx default) arena (eta t)) (t + 1) := by
        rw [selectLoop]
        rw [if_pos hcond]
      rw [hstep]
      obtain ⟨ihle, ihlt, ihcond⟩ := ih
        (best_child Q beta explore (arena.getD idx default) arena (eta t)) (t + 1)
        hlen (by omega)
      exact ⟨le_trans (le_of_lt hlt) ihle, ihlt, ihcond⟩
    · have hstep : selectLoop G Q beta explore arena eta (fuel + 1) idx t = (idx, t) := by
        rw [selectLoop]
        rw [if_neg hcond]
      rw [hstep]
      exact ⟨le_refl idx, h1, by simpa using hcond⟩

/-- Helper: SameStructure is reflexive. -/
theorem sameStructure_refl (a : Arena) : SameStructure a a :=
  ⟨rfl, fun _ => ⟨rfl, rfl, rfl, rfl, rfl, rfl⟩⟩

/-- Helper: SameStructure is transitive. -/
theorem sameStructure_trans {a1 a2 a3 : Arena} (h12 : SameStructure a1 a2)
    (h23 : SameStructure a2 a3) : SameStructure a1 a3 := by
  obtain ⟨hl12, hf12⟩ := h12
  obtain ⟨hl23, hf23⟩ := h23
  refine ⟨hl23.trans hl12, fun j => ?_⟩
  obtain ⟨b1, p1, q1, r1, c1, u1⟩ := hf12 j
  obtain ⟨b2, p2, q2, r2, c2, u2⟩ := hf23 j
  exact ⟨b2.trans b1, p2.trans p1, q2.trans q1, r2.trans r1, c2.trans c1, u2.trans u1⟩

/-- Helper: bumping visits and value of one node preserves the structure. -/
theorem sameStructure_set_inc (arena : Arena) (idx : Nat) (r : ℚ) :
    SameStructure arena
      (arena.set idx
        { arena.getD idx default with
          visits := (arena.getD idx default).visits + 1
          value := (arena.getD idx default).value + r }) := by
  refine ⟨List.length_set arena idx _, fun j => ?_⟩
  by_cases hj : idx = j
  · subst hj
    by_cases hlt : idx < arena.length
    · rw [getD_set_self hlt]
      exact ⟨rfl, rfl, rfl, rfl, rfl, rfl⟩
    · rw [List.set_eq_of_length_le (Nat.le_of_not_lt hlt)]
      exact ⟨rfl, rfl, rfl, rfl, rfl, rfl⟩
  · rw [getD_set_ne hj]
    exact ⟨rfl, rfl, rfl, rfl, rfl, rfl⟩

/-- Helper: the parent chain only depends on the parent pointers. -/
theorem chain_congr {a1 a2 : Arena}
    (h : ∀ j, (a1.getD j default).parent = (a2.getD j default).parent) :
    ∀ fuel idx, chain a1 fuel idx = chain a2 fuel idx := by
  intro fuel
  induction fuel with
  | zero => intro idx; rfl
  | succ fuel ih =>
    intro idx
    unfold chain
    rw [h idx]
    cases (a2.getD idx default).parent with
    | none => rfl
    | some p =>
      dsimp only
      rw [ih p]

/-- Helper: the full effect of backprop on the arena — structure preserved,
and the visit count of every in-range node grows by its multiplicity in the
climbed parent chain. -/
theorem backprop_spec :
    ∀ (fuel : Nat) (arena : Arena) (idx : Nat) (r : ℚ) (exp : List Experience),
      idx < arena.length →
      (∀ j p, j < arena.length → (arena.getD j default).parent = some p → p < j) →
      SameStructure arena (backprop fuel arena idx r exp).1 ∧
      (∀ j, j < arena.length →
        ((backprop fuel arena idx r exp).1.getD j default).visits =
          (arena.getD j default).visits + (chain arena fuel idx).count j) := by
  intro fuel
  induction fuel with
  | zero =>
    intro arena idx r exp _ _
    exact ⟨sameStructure_refl arena, fun j _ => by simp [backprop, chain]⟩
  | succ fuel ih =>
    intro arena idx r exp hidx hpar
    rcases hnode : arena.getD idx default with ⟨nb, npl, npar, npa, nch, nv, nval, nun⟩
    have hset := sameStructure_set_inc arena idx r
    rw [hnode] at hset
    dsimp only at hset
    have hvset : ∀ j, j < arena.length →
        ((arena.set idx ⟨nb, npl, npar, npa, nch, nv + 1, nval + r, nun⟩).getD j default).visits =
          (arena.getD j default).visits + (if idx = j then 1 else 0) := by
      intro j hj
      by_cases hji : idx = j
      · subst hji
        rw [getD_set_self hidx, hnode]
        simp
      · rw [getD_set_ne hji]
        simp [hji]
    cases hpp : npar with
    | none =>
      subst hpp
      have hres0 : backprop (fuel + 1) arena idx r exp =
          (arena.set idx ⟨nb, npl, none, npa, nch, nv + 1, nval + r, nun⟩, exp) := by
        simp only [backprop, hnode]
      have hchain0 : chain arena (fuel + 1) idx = [idx] := by
        simp only [chain, hnode]
      rw [hres0, hchain0]
      refine ⟨hset, fun j hj => ?_⟩
      rw [hvset j hj]
      by_cases hji : idx = j
      · subst hji
        simp [List.count_cons]
      · simp [List.count_cons, hji]
    | some p =>
      subst hpp
      have hres0 : backprop (fuel + 1) arena idx r exp =
          backprop fuel (arena.set idx ⟨nb, npl, some p, npa, nch, nv + 1, nval + r, nun⟩) p r
            (exp ++ [((arena.getD p default).board, npa.getD 0, r)]) := by
        simp only [backprop, hnode]
      have hchain0 : chain arena (fuel + 1) idx = idx :: chain arena fuel p := by
        simp only [chain, hnode]
      have hplt : p < idx := by
        apply hpar idx p hidx
        rw [hnode]
      have hlen' : (arena.set idx ⟨nb, npl, some p, npa, nch, nv + 1, nval + r, nun⟩).length
          = arena.length := List.length_set arena idx _
      have hpar' : ∀ j q,
          j < (arena.set idx ⟨nb, npl, some p, npa, nch, nv + 1, nval + r, nun⟩).length →
          ((arena.set idx ⟨nb, npl, some p, npa, nch, nv + 1, nval + r, nun⟩).getD j default).parent = some q →
          q < j := by
        intro j q hj hq
        rw [(hset.2 j).2.2.1] at hq
        exact hpar j q (by rwa [hlen'] at hj) hq
      have hpidx : p < (arena.set idx ⟨nb, npl, some p, npa, nch, nv + 1, nval + r, nun⟩).length := by
        rw [hlen']
        omega
      obtain ⟨hs2, hv2⟩ := ih (arena.set idx ⟨nb, npl, some p, npa, nch, nv + 1, nval + r, nun⟩) p r
        (exp ++ [((arena.getD p default).board, npa.getD 0, r)]) hpidx hpar'
      rw [hres0]
      refine ⟨sameStructure_trans hset hs2, fun j hj => ?_⟩
      have hj' : j < (arena.set idx ⟨nb, npl, some p, npa, nch, nv + 1, nval + r, nun⟩).length := by
        rw [hlen']
        exact hj
      rw [hv2 j hj']
      have hchain2 : chain (arena.set idx ⟨nb, npl, some p, npa, nch, nv + 1, nval + r, nun⟩) fuel p
          = chain arena fuel p :=
        chain_congr (fun j => (hset.2 j).2.2.1) fuel p
      rw [hchain2, hchain0, hvset j hj, List.count_cons]
      by_cases hji : idx = j
      · simp [hji]
        omega
      · simp [hji]

/-- Helper: summed multiplicities against a cons. -/
theorem sum_count_cons (L : List Nat) (x : Nat) (ch : List Nat) :
    (L.map (fun c => (x :: ch).count c)).sum
      = (L.map (fun c => ch.count c)).sum + L.count x := by
  induction L with
  | nil => simp
  | cons c L ihL =>
    rw [List.map_cons, List.sum_cons, List.map_cons, List.sum_cons, ihL]
    have h1 : (x :: ch).count c = ch.count c + if x == c then 1 else 0 :=
      List.count_cons c x ch
    have h2 : (c :: L).count x = L.count x + if c == x then 1 else 0 :=
      List.count_cons x c L
    rw [h1, h2]
    by_cases hxc : x = c
    · subst hxc
      simp
      omega
    · have hx1 : (x == c) = false := beq_eq_false_iff_ne.mpr hxc
      have hx2 : (c == x) = false := beq_eq_false_iff_ne.mpr (fun h => hxc h.symm)
      rw [hx1, hx2]
      simp
      omega

/-- Helper: the parent chain of a non-root node meets the root's children
exactly once; the chain of the root meets them not at all. -/
theorem chain_count_sum (G : Game) (arena : Arena) (hwf : WF G arena) :
    ∀ idx, idx < arena.length → ∀ fuel, idx < fuel →
      (((arena.getD 0 default).children.map Prod.snd).map
        (fun c => (chain arena fuel idx).count c)).sum
        = if idx = 0 then 0 else 1 := by
  have hroot0 : 0 < arena.length := List.length_pos.mpr hwf.nonempty
  intro idx
  induction idx using Nat.strong_induction_on with
  | _ idx ih =>
    intro hidx fuel hfuel
    obtain ⟨f, rfl⟩ : ∃ f, fuel = f + 1 := ⟨fuel - 1, by omega⟩
    have hzero : ∀ (l : List Nat), (∀ c ∈ l, 0 < c) →
        (l.map (fun c => ([0] : List Nat).count c)).sum = 0 := by
      intro l hl
      apply List.sum_eq_zero
      intro x hx
      obtain ⟨c, hc, rfl⟩ := List.mem_map.mp hx
      apply List.count_eq_zero_of_not_mem
      intro hmem
      rcases List.mem_singleton.mp hmem with rfl
      exact absurd (hl 0 hc) (by omega)
    have hpos : ∀ c ∈ (arena.getD 0 default).children.map Prod.snd, 0 < c := by
      intro c hc
      obtain ⟨ac, hac, rfl⟩ := List.mem_map.mp hc
      exact (hwf.childRange 0 ac hroot0 hac).1
    by_cases h0 : idx = 0
    · subst h0
      have hchain : chain arena (f + 1) 0 = [0] := by
        unfold chain
        rw [hwf.rootParent]
      rw [hchain, if_pos rfl]
      exact hzero _ hpos
    · have hps := hwf.parentIsSome idx (Nat.pos_of_ne_zero h0) hidx
      cases hp : (arena.getD idx default).parent with
      | none => exact absurd hp hps
      | some p =>
        obtain ⟨hplt, hpmem⟩ := hwf.parentSpec idx p hidx hp
        have hchain : chain arena (f + 1) idx = idx :: chain arena f p := by
          conv_lhs => rw [chain]
          rw [hp]
        rw [hchain, if_neg h0, sum_count_cons]
        have hidxmem : idx ∈ (arena.getD 0 default).children.map Prod.snd ↔ p = 0 := by
          constructor
          · intro hmem
            obtain ⟨ac, hac, hac2⟩ := List.mem_map.mp hmem
            have := hwf.childParent 0 ac hroot0 hac
            rw [hac2] at this
            rw [hp] at this
            cases this
            rfl
          · intro hpz
            subst hpz
            exact List.mem_map.mpr ⟨_, hpmem, rfl⟩
        by_cases hpz : p = 0
        · subst hpz
          obtain ⟨f', rfl⟩ : ∃ f', f = f' + 1 := ⟨f - 1, by omega⟩
          have hchain0 : chain arena (f' + 1 + 1) idx = idx :: chain arena (f' + 1) 0 := hchain
          have hchainr : chain arena (f' + 1) 0 = [0] := by
            unfold chain
            rw [hwf.rootParent]
          rw [hchainr, hzero _ hpos,
            List.count_eq_one_of_mem (hwf.childNodup 0 hroot0) (hidxmem.mpr rfl)]
        · have hIH := ih p hplt (by omega) f (by omega)
          rw [if_neg hpz] at hIH
          rw [hIH]
          have hnot : idx ∉ (arena.getD 0 default).children.map Prod.snd := by
            intro hmem
            exact hpz (hidxmem.mp hmem)
          rw [List.count_eq_zero_of_not_mem hnot]

/-- Helper: the effect of backprop on the root children's visit total — one
new visit when the walk starts strictly below the root, none when it starts
at the root. -/
theorem backprop_VisitSum (G : Game) (arena : Arena) (hwf : WF G arena)
    (idx : Nat) (r : ℚ) (exp : List Experience) (hidx : idx < arena.length)
    (fuel : Nat) (hfuel : idx < fuel) :
    VisitSum ((backprop fuel arena idx r exp).1)
      = VisitSum arena + (if idx = 0 then 0 else 1) := by
  have hroot0 : 0 < arena.length := List.length_pos.mpr hwf.nonempty
  obtain ⟨hs, hv⟩ := backprop_spec fuel arena idx r exp hidx
    (fun j p hj hp => (hwf.parentSpec j p hj hp).1)
  unfold VisitSum
  rw [(hs.2 0).2.2.2.2.1]
  have hmapeq : ((arena.getD 0 default).children.map
      (fun ac => (((backprop fuel arena idx r exp).1).getD ac.2 default).visits))
      = (arena.getD 0 default).children.map
        (fun ac => (arena.getD ac.2 default).visits + (chain arena fuel idx).count ac.2) := by
    apply List.map_congr_left
    intro ac hac
    exact hv ac.2 (hwf.childRange 0 ac hroot0 hac).2
  rw [hmapeq, List.sum_map_add]
  have hsnd : ((arena.getD 0 default).children.map
      (fun ac => (chain arena fuel idx).count ac.2)).sum
      = (((arena.getD 0 default).children.map Prod.snd).map
        (fun c => (chain arena fuel idx).count c)).sum := by
    rw [List.map_map]
    rfl
  rw [hsnd, chain_count_sum G arena hwf idx hidx fuel hfuel]

/-- Helper: the structural invariants only mention structural fields, so
they transfer along SameStructure. -/
theorem WF_of_sameStructure {G : Game} {a1 a2 : Arena} (hs : SameStructure a1 a2)
    (hwf : WF G a1) : WF G a2 := by
  obtain ⟨hl, hf⟩ := hs
  refine ⟨?_, ?_, ?_, ?_, ?_, ?_, ?_, ?_⟩
  · rw [← List.length_pos, hl, List.length_pos]
    exact hwf.nonempty
  · rw [(hf 0).2.2.1]
    exact hwf.rootParent
  · intro i h0 hi
    rw [(hf i).2.2.1]
    exact hwf.parentIsSome i h0 (by omega)
  · intro i p hi hp
    rw [(hf i).2.2.1] at hp
    obtain ⟨hlt, hmem⟩ := hwf.parentSpec i p (by omega) hp
    refine ⟨hlt, ?_⟩
    rw [(hf i).2.2.2.1, (hf p).2.2.2.2.1]
    exact hmem
  · intro i ac hi hac
    rw [(hf i).2.2.2.2.1] at hac
    obtain ⟨h1, h2⟩ := hwf.childRange i ac (by omega) hac
    exact ⟨h1, by omega⟩
  · intro i ac hi hac
    rw [(hf i).2.2.2.2.1] at hac
    rw [(hf ac.2).2.2.1]
    exact hwf.childParent i ac (by omega) hac
  · intro i hi
    rw [(hf i).2.2.2.2.1]
    exact hwf.childNodup i (by omega)
  · intro i hi hfin hunt
    rw [(hf i).1] at hfin
    rw [(hf i).2.2.2.2.2] at hunt
    rw [(hf i).2.2.2.2.1]
    exact hwf.fullNonempty i (by omega) hfin hunt

/-- Helper: the visit invariant transfers along SameStructure when visits
only grow. -/
theorem AllVisited_of_sameStructure {G : Game} {a1 a2 : Arena}
    (hs : SameStructure a1 a2) (hwf : WF G a1)
    (hmono : ∀ j, j < a1.length → (a1.getD j default).visits ≤ (a2.getD j default).visits)
    (hav : AllVisited a1) : AllVisited a2 := by
  intro i ac hi hac
  rw [(hs.2 i).2.2.2.2.1] at hac
  have hi1 : i < a1.length := by
    rw [← hs.1]
    exact hi
  have h1 := hav i ac hi1 hac
  have hr := (hwf.childRange i ac hi1 hac).2
  calc 1 ≤ (a1.getD ac.2 default).visits := h1
    _ ≤ (a2.getD ac.2 default).visits := hmono ac.2 hr

/-- Helper: when the selected node is final or has no untried action the
expansion step is the identity. -/
theorem expand_noop (G : Game) (arena : Arena) (idx : Nat) (sigma : Nat → Nat)
    (k : Nat)
    (hguard : (!G.isFinal (arena.getD idx default).board &&
      !(arena.getD idx default).untried.isEmpty) = false) :
    expand G arena idx sigma k = (arena, idx, k) := by
  simp only [expand]
  rw [hguard]
  rfl

/-- Helper: the full effect of the expansion step on a non-final node with
untried actions. -/
theorem expand_go (G : Game) (arena : Arena) (idx : Nat) (sigma : Nat → Nat)
    (k : Nat)
    (hfin : G.isFinal (arena.getD idx default).board = false)
    (hunt : (arena.getD idx default).untried ≠ []) :
    expand G arena idx sigma k =
      (arena.set idx
        { arena.getD idx default with
          children := (arena.getD idx default).children ++
            [(pickFrom (arena.getD idx default).untried (sigma k), arena.length)]
          untried := (arena.getD idx default).untried.erase
            (pickFrom (arena.getD idx default).untried (sigma k)) }
        ++ [mkNode G
            (G.drop (arena.getD idx default).board (arena.getD idx default).player
              (pickFrom (arena.getD idx default).untried (sigma k)))
            (-(arena.getD idx default).player) (some idx)
            (some (pickFrom (arena.getD idx default).untried (sigma k)))],
       arena.length, k + 1) := by
  have hguard : (!G.isFinal (arena.getD idx default).board &&
      !(arena.getD idx default).untried.isEmpty) = true := by
    rw [hfin]
    rw [List.isEmpty_eq_false.mpr hunt]
    rfl
  simp only [expand]
  rw [hguard]
  rfl

/-- Helper: the expansion step preserves the structural invariants, keeps
all old visit counts (the new child starts at zero), keeps the root
children's visit total, and every recorded child is either old or the new
node. -/
theorem expand_wf (G : Game) (arena : Arena) (idx : Nat) (sigma : Nat → Nat)
    (k : Nat) (hG : NoStuck G) (hwf : WF G arena) (hidx : idx < arena.length)
    (hfin : G.isFinal (arena.getD idx default).board = false)
    (hunt : (arena.getD idx default).untried ≠ []) :
    (expand G arena idx sigma k).2.1 = arena.length ∧
    (expand G arena idx sigma k).1.length = arena.length + 1 ∧
    WF G (expand G arena idx sigma k).1 ∧
    (∀ j, j < arena.length →
      ((expand G arena idx sigma k).1.getD j default).visits = (arena.getD j default).visits ∧
      ((expand G arena idx sigma k).1.getD j default).board = (arena.getD j default).board ∧
      ((expand G arena idx sigma k).1.getD j default).parent = (arena.getD j default).parent) ∧
    ((expand G arena idx sigma k).1.getD arena.length default).visits = 0 ∧
    (∀ i ac, i < (expand G arena idx sigma k).1.length →
      ac ∈ ((expand G arena idx sigma k).1.getD i default).children →
      ac.2 = arena.length ∨ (i < arena.length ∧ ac ∈ (arena.getD i default).children)) ∧
    VisitSum (expand G arena idx sigma k).1 = VisitSum arena := by
  have hres := expand_go G arena idx sigma k hfin hunt
  set a := pickFrom (arena.getD idx default).untried (sigma k) with ha
  set L := arena.length with hL
  set node' := { arena.getD idx default with
    children := (arena.getD idx default).children ++ [(a, L)]
    untried := (arena.getD idx default).untried.erase a } with hnode'
  set child := mkNode G
    (G.drop (arena.getD idx default).board (arena.getD idx default).player a)
    (-(arena.getD idx default).player) (some idx) (some a) with hchild
  have harena : (expand G arena idx sigma k).1 = arena.set idx node' ++ [child] := by
    rw [hres]
  have hni : (expand G arena idx sigma k).2.1 = L := by
    rw [hres]
  have hsetlen : (arena.set idx node').length = L := List.length_set arena idx node'
  have hlen : (arena.set idx node' ++ [child]).length = L + 1 := by
    rw [List.length_append, hsetlen]
    rfl
  have g1 : ∀ j, j < L → j ≠ idx →
      (arena.set idx node' ++ [child]).getD j default = arena.getD j default := by
    intro j hj hji
    rw [getD_append_left (by rw [hsetlen]; exact hj), getD_set_ne (fun h => hji h.symm)]
  have g2 : (arena.set idx node' ++ [child]).getD idx default = node' := by
    rw [getD_append_left (by rw [hsetlen]; exact hidx), getD_set_self hidx]
  have g3 : (arena.set idx node' ++ [child]).getD L default = child := by
    have := getD_append_length (arena.set idx node') child default
    rw [hsetlen] at this
    exact this
  have gpar : ∀ j, j < L →
      ((arena.set idx node' ++ [child]).getD j default).parent = (arena.getD j default).parent := by
    intro j hj
    by_cases hji : j = idx
    · subst hji
      rw [g2, hnode']
    · rw [g1 j hj hji]
  have gvis : ∀ j, j < L →
      ((arena.set idx node' ++ [child]).getD j default).visits = (arena.getD j default).visits := by
    intro j hj
    by_cases hji : j = idx
    · subst hji
      rw [g2, hnode']
    · rw [g1 j hj hji]
  have gboard : ∀ j, j < L →
      ((arena.set idx node' ++ [child]).getD j default).board = (arena.getD j default).board := by
    intro j hj
    by_cases hji : j = idx
    · subst hji
      rw [g2, hnode']
    · rw [g1 j hj hji]
  have guntried : ∀ j, j < L → j ≠ idx →
      ((arena.set idx node' ++ [child]).getD j default).untried = (arena.getD j default).untried := by
    intro j hj hji
    rw [g1 j hj hji]
  have hchild_untried : child.untried = G.freeCols
      (G.drop (arena.getD idx default).board (arena.getD idx default).player a) := by
    rw [hchild]
    rfl
  have gch : ∀ j, j < L → j ≠ idx →
      ((arena.set idx node' ++ [child]).getD j default).children = (arena.getD j default).children := by
    intro j hj hji
    rw [g1 j hj hji]
  have hLpos : 0 < L := by
    rw [hL]
    omega
  have hsnds : ∀ ac, ac ∈ (arena.getD idx default).children → ac.2 < L ∧ idx < ac.2 :=
    fun ac hac => ⟨(hwf.childRange idx ac hidx hac).2, (hwf.childRange idx ac hidx hac).1⟩
  have hWF2 : WF G (arena.set idx node' ++ [child]) := by
    refine ⟨?_, ?_, ?_, ?_, ?_, ?_, ?_, ?_⟩
    · rw [← List.length_pos, hlen]
      omega
    · by_cases h0 : idx = 0
      · subst h0
        rw [g2, hnode']
        exact hwf.rootParent
      · rw [gpar 0 hLpos]
        exact hwf.rootParent
    · intro i h0 hi
      rw [hlen] at hi
      by_cases hiL : i = L
      · subst hiL
        rw [g3, hchild]
        simp [mkNode]
      · rw [gpar i (by omega)]
        exact hwf.parentIsSome i h0 (by omega)
    · intro i p hi hp
      rw [hlen] at hi
      by_cases hiL : i = L
      · subst hiL
        rw [g3, hchild] at hp
        simp only [mkNode] at hp
        have hpeq : idx = p := Option.some.inj hp
        subst hpeq
        refine ⟨hidx, ?_⟩
        have hpaL : ((arena.set idx node' ++ [child]).getD L default).parentAction = some a := by
          rw [g3]
          rfl
        have hchn : ((arena.set idx node' ++ [child]).getD idx default).children
            = (arena.getD idx default).children ++ [(a, L)] := by
          rw [g2]
        rw [hpaL, hchn]
        simp
      · have hiL' : i < L := by omega
        rw [gpar i hiL'] at hp
        obtain ⟨hlt, hmem⟩ := hwf.parentSpec i p (by omega) hp
        refine ⟨hlt, ?_⟩
        have hpa2 : ((arena.set idx node' ++ [child]).getD i default).parentAction =
            (arena.getD i default).parentAction := by
          by_cases hji : idx = i
          · subst hji
            rw [g2, hnode']
          · rw [g1 i hiL' (fun h => hji h.symm)]
        rw [hpa2]
        by_cases hpidx : p = idx
        · subst hpidx
          rw [g2, hnode']
          exact List.mem_append_left _ hmem
        · rw [g1 p (by omega) hpidx]
          exact hmem
    · intro i ac hi hac
      rw [hlen] at hi
      by_cases hiL : i = L
      · subst hiL
        rw [g3, hchild] at hac
        simp only [mkNode] at hac
        cases hac
      · have hiL' : i < L := by omega
        by_cases hji : idx = i
        · subst hji
          rw [g2, hnode'] at hac
          dsimp only at hac
          rcases List.mem_append.mp hac with h | h
          · obtain ⟨h1, h2⟩ := hwf.childRange idx ac hidx h
            exact ⟨h1, by rw [hlen]; omega⟩
          · rcases List.mem_singleton.mp h with rfl
            exact ⟨hidx, by rw [hlen]; omega⟩
        · rw [g1 i hiL' (fun h => hji h.symm)] at hac
          obtain ⟨h1, h2⟩ := hwf.childRange i ac (by omega) hac
          exact ⟨h1, by rw [hlen]; omega⟩
    · intro i ac hi hac
      rw [hlen] at hi
      by_cases hiL : i = L
      · subst hiL
        rw [g3, hchild] at hac
        simp only [mkNode] at hac
        cases hac
      · have hiL' : i < L := by omega
        by_cases hji : idx = i
        · subst hji
          rw [g2, hnode'] at hac
          dsimp only at hac
          rcases List.mem_append.mp hac with h | h
          · have hcp := hwf.childParent idx ac hidx h
            have hr := hwf.childRange idx ac hidx h
            rw [gpar ac.2 hr.2]
            exact hcp
          · rcases List.mem_singleton.mp h with rfl
            show ((arena.set idx node' ++ [child]).getD L default).parent = some idx
            rw [g3]
            rfl
        · rw [g1 i hiL' (fun h => hji h.symm)] at hac
          have hcp := hwf.childParent i ac (by omega) hac
          have hr := hwf.childRange i ac (by omega) hac
          rw [gpar ac.2 hr.2]
          exact hcp
    · intro i hi
      rw [hlen] at hi
      by_cases hiL : i = L
      · subst hiL
        rw [g3, hchild]
        simp [mkNode]
      · have hiL' : i < L := by omega
        by_cases hji : idx = i
        · subst hji
          rw [g2, hnode']
          dsimp only
          rw [List.map_append, List.nodup_append]
          refine ⟨hwf.childNodup idx hidx, by simp, ?_⟩
          intro x hx hx2
          simp only [List.map_cons, List.map_nil, List.mem_singleton] at hx2
          subst hx2
          obtain ⟨ac, hac, hac2⟩ := List.mem_map.mp hx
          have := (hwf.childRange idx ac hidx hac).2
          omega
        · rw [g1 i hiL' (fun h => hji h.symm)]
          exact hwf.childNodup i (by omega)
    · intro i hi hfin2 hunt2
      rw [hlen] at hi
      by_cases hiL : i = L
      · subst hiL
        rw [g3, hchild] at hfin2 hunt2
        simp only [mkNode] at hfin2 hunt2
        exact absurd hunt2 (hG _ hfin2)
      · have hiL' : i < L := by omega
        by_cases hji : idx = i
        · subst hji
          rw [g2, hnode']
          simp
        · rw [g1 i hiL' (fun h => hji h.symm)] at hfin2 hunt2 ⊢
          exact hwf.fullNonempty i (by omega) hfin2 hunt2
  have hvis0 : ((arena.set idx node' ++ [child]).getD L default).visits = 0 := by
    rw [g3, hchild]
    rfl
  have hdecomp : ∀ i ac, i < (arena.set idx node' ++ [child]).length →
      ac ∈ ((arena.set idx node' ++ [child]).getD i default).children →
      ac.2 = L ∨ (i < L ∧ ac ∈ (arena.getD i default).children) := by
    intro i ac hi hac
    rw [hlen] at hi
    by_cases hiL : i = L
    · subst hiL
      rw [g3, hchild] at hac
      simp only [mkNode] at hac
      cases hac
    · have hiL' : i < L := by omega
      by_cases hji : idx = i
      · subst hji
        rw [g2, hnode'] at hac
        dsimp only at hac
        rcases List.mem_append.mp hac with h | h
        · exact Or.inr ⟨hiL', h⟩
        · rcases List.mem_singleton.mp h with rfl
          exact Or.inl rfl
      · rw [g1 i hiL' (fun h => hji h.symm)] at hac
        exact Or.inr ⟨hiL', hac⟩
  have hvsum : VisitSum (arena.set idx node' ++ [child]) = VisitSum arena := by
    unfold VisitSum
    by_cases h0 : idx = 0
    · subst h0
      have hch0 : ((arena.set 0 node' ++ [child]).getD 0 default).children
          = (arena.getD 0 default).children ++ [(a, L)] := by
        rw [g2]
      rw [hch0, List.map_append, List.sum_append]
      have hmap : (arena.getD 0 default).children.map
          (fun ac => ((arena.set 0 node' ++ [child]).getD ac.2 default).visits)
          = (arena.getD 0 default).children.map
            (fun ac => (arena.getD ac.2 default).visits) := by
        apply List.map_congr_left
        intro ac hac
        have hr := hwf.childRange 0 ac hLpos hac
        exact gvis ac.2 hr.2
      rw [hmap]
      have hsingle : ([((a : Nat), L)].map
          (fun ac => ((arena.set 0 node' ++ [child]).getD ac.2 default).visits)).sum = 0 := by
        simp only [List.map_cons, List.map_nil, List.sum_cons, List.sum_nil]
        rw [hvis0]
        omega
      rw [hsingle]
      omega
    · rw [gch 0 hLpos (fun h => h0 h.symm)]
      have hmape : (arena.getD 0 default).children.map
          (fun ac => ((arena.set idx node' ++ [child]).getD ac.2 default).visits)
          = (arena.getD 0 default).children.map
            (fun ac => (arena.getD ac.2 default).visits) := by
        apply List.map_congr_left
        intro ac hac
        have hr := hwf.childRange 0 ac hLpos hac
        exact gvis ac.2 hr.2
      rw [hmape]
  refine ⟨hni, by rw [harena]; exact hlen, by rw [harena]; exact hWF2,
    fun j hj => by rw [harena]; exact ⟨gvis j hj, gboard j hj, gpar j hj⟩,
    by rw [harena]; exact hvis0,
    by rw [harena]; exact hdecomp,
    by rw [harena]; exact hvsum⟩

/-- Helper: the backprop chain always starts with its origin. -/
theorem chain_count_head (arena : Arena) (fuel idx : Nat) :
    1 ≤ (chain arena (fuel + 1) idx).count idx := by
  have h : chain arena (fuel + 1) idx =
      match (arena.getD idx default).parent with
      | none => [idx]
      | some p => idx :: chain arena fuel p := by
    rw [chain]
  rw [h]
  cases (arena.getD idx default).parent with
  | none =>
    simp
  | some p =>
    dsimp only
    rw [List.count_cons]
    simp

/-- Helper: one full _mcts iteration preserves the structural and visit
invariants, preserves the root board, and adds exactly one visit to the
root children's total when the root is not terminal (none when it is). -/
theorem mctsIter_invariant (G : Game) (Q : QTable) (beta : ℚ)
    (explore : Nat → Nat → ℚ) (rootPlayer : Int) (sigma eta : Nat → Nat)
    (hG : NoStuck G) (st : MState) (hwf : WF G st.arena)
    (hav : AllVisited st.arena) :
    WF G (mctsIter G Q beta explore rootPlayer sigma eta st).arena ∧
    AllVisited (mctsIter G Q beta explore rootPlayer sigma eta st).arena ∧
    ((mctsIter G Q beta explore rootPlayer sigma eta st).arena.getD 0 default).board
      = (st.arena.getD 0 default).board ∧
    VisitSum (mctsIter G Q beta explore rootPlayer sigma eta st).arena
      = VisitSum st.arena +
        (if G.isFinal (st.arena.getD 0 default).board = true then 0 else 1) := by
  have hlenpos : 0 < st.arena.length := List.length_pos.mpr hwf.nonempty
  set v := (selectLoop G Q beta explore st.arena eta (st.arena.length + 1) 0 st.t).1 with hvdef
  obtain ⟨hv0, hvlt, hvcond⟩ := selectLoop_spec G Q beta explore st.arena eta hwf
    (st.arena.length + 1) 0 st.t hlenpos (by omega)
  have hiter : (mctsIter G Q beta explore rootPlayer sigma eta st).arena =
      (backprop ((expand G st.arena v sigma st.k).1.length + 1)
        (expand G st.arena v sigma st.k).1
        (expand G st.arena v sigma st.k).2.1
        (rollout G sigma
          ((expand G st.arena v sigma st.k).1.getD (expand G st.arena v sigma st.k).2.1 default).board
          ((expand G st.arena v sigma st.k).1.getD (expand G st.arena v sigma st.k).2.1 default).player
          rootPlayer (expand G st.arena v sigma st.k).2.2).1
        st.exp).1 := rfl
  by_cases hrootfin : G.isFinal (st.arena.getD 0 default).board = true
  · -- terminal root: the loop stops at the root, nothing expands
    have hcond0 : (!G.isFinal (st.arena.getD 0 default).board &&
        (st.arena.getD 0 default).untried.isEmpty) = false := by
      rw [hrootfin]
      rfl
    have hvz : v = 0 := by
      rw [hvdef, selectLoop, if_neg (by rw [hcond0]; exact Bool.false_ne_true)]
    have hguard : (!G.isFinal ((st.arena.getD v default).board) &&
        !(st.arena.getD v default).untried.isEmpty) = false := by
      rw [hvz, hrootfin]
      rfl
    have hexp := expand_noop G st.arena v sigma st.k hguard
    rw [hiter, hexp]
    dsimp only
    set r := (rollout G sigma (st.arena.getD v default).board
      (st.arena.getD v default).player rootPlayer st.k).1 with hr
    obtain ⟨hs, hvis⟩ := backprop_spec (st.arena.length + 1) st.arena v r st.exp hvlt
      (fun j p hj hp => (hwf.parentSpec j p hj hp).1)
    refine ⟨WF_of_sameStructure hs hwf, ?_, (hs.2 0).1, ?_⟩
    · refine AllVisited_of_sameStructure hs hwf (fun j hj => ?_) hav
      rw [hvis j hj]
      omega
    · rw [backprop_VisitSum G st.arena hwf v r st.exp hvlt (st.arena.length + 1) (by omega)]
      rw [hvz, hrootfin]
      rfl
  · have hrootfin' : G.isFinal (st.arena.getD 0 default).board = false :=
      Bool.eq_false_iff.mpr hrootfin
    by_cases hvfin : G.isFinal ((st.arena.getD v default).board) = true
    · -- selected node terminal: nothing expands, the walk starts below the root
      have hvnz : v ≠ 0 := by
        intro h
        rw [h, hrootfin'] at hvfin
        exact Bool.false_ne_true hvfin
      have hguard : (!G.isFinal ((st.arena.getD v default).board) &&
          !(st.arena.getD v default).untried.isEmpty) = false := by
        rw [hvfin]
        rfl
      have hexp := expand_noop G st.arena v sigma st.k hguard
      rw [hiter, hexp]
      dsimp only
      set r := (rollout G sigma (st.arena.getD v default).board
        (st.arena.getD v default).player rootPlayer st.k).1 with hr
      obtain ⟨hs, hvis⟩ := backprop_spec (st.arena.length + 1) st.arena v r st.exp hvlt
        (fun j p hj hp => (hwf.parentSpec j p hj hp).1)
      refine ⟨WF_of_sameStructure hs hwf, ?_, (hs.2 0).1, ?_⟩
      · refine AllVisited_of_sameStructure hs hwf (fun j hj => ?_) hav
        rw [hvis j hj]
        omega
      · rw [backprop_VisitSum G st.arena hwf v r st.exp hvlt (st.arena.length + 1) (by omega)]
        rw [if_neg hvnz, hrootfin']
        rfl
    · -- expansion happens
      have hvfin' : G.isFinal ((st.arena.getD v default).board) = false :=
        Bool.eq_false_iff.mpr hvfin
      have huntried : (st.arena.getD v default).untried ≠ [] := by
        intro hempty
        rw [hvfin', hempty] at hvcond
        simp at hvcond
      obtain ⟨hni, hlen2, hwf2, hpres, hvis0, hdecomp, hvsum2⟩ :=
        expand_wf G st.arena v sigma st.k hG hwf hvlt hvfin' huntried
      set L := st.arena.length with hLdef
      set arena2 := (expand G st.arena v sigma st.k).1 with ha2
      rw [hiter, hni]
      set r := (rollout G sigma (arena2.getD L default).board
        (arena2.getD L default).player rootPlayer (expand G st.arena v sigma st.k).2.2).1 with hr
      have hLlt : L < arena2.length := by
        rw [hlen2]
        omega
      obtain ⟨hs, hvis⟩ := backprop_spec (arena2.length + 1) arena2 L r st.exp hLlt
        (fun j p hj hp => (hwf2.parentSpec j p hj hp).1)
      have hLnz : L ≠ 0 := by omega
      refine ⟨WF_of_sameStructure hs hwf2, ?_, ?_, ?_⟩
      · -- all recorded children visited after the walk
        intro i ac hi hac
        rw [(hs.2 i).2.2.2.2.1] at hac
        have hi2 : i < arena2.length := by
          rw [← hs.1]
          exact hi
        rcases hdecomp i ac hi2 hac with hacL | ⟨hiL, hacold⟩
        · rw [hvis ac.2 (by rw [hacL]; exact hLlt)]
          rw [hacL, hvis0]
          have := chain_count_head arena2 arena2.length L
          omega
        · have hacr := (hwf.childRange i ac hiL hacold).2
          have hacr2 : ac.2 < arena2.length := by
            rw [hlen2]
            omega
          rw [hvis ac.2 hacr2, (hpres ac.2 hacr).1]
          have := hav i ac hiL hacold
          omega
      · rw [(hs.2 0).1, (hpres 0 hlenpos).2.1]
      · rw [backprop_VisitSum G arena2 hwf2 L r st.exp hLlt (arena2.length + 1) (by omega)]
        rw [hvsum2, if_neg hLnz, hrootfin']
        rfl

/-- Helper: the board contract holds for the concrete game — a board
without free columns is final. -/
theorem connect4_noStuck : NoStuck connect4 := by
  intro b hfin
  have hie : (C4.freeCols b).isEmpty = false := by
    have h2 : C4.isFinal b = false := hfin
    unfold C4.isFinal at h2
    exact (Bool.or_eq_false_iff.mp h2).2
  intro h
  have : C4.freeCols b = [] := h
  rw [this] at hie
  simp at hie

/-- Helper: the invariants hold after every number of _mcts iterations, and
the root children's visit total equals the number of iterations performed
(zero when the root is terminal). -/
theorem mctsRun_invariant (G : Game) (Q : QTable) (beta : ℚ)
    (explore : Nat → Nat → ℚ) (b : Board) (p : Int) (sigma eta : Nat → Nat)
    (hG : NoStuck G) :
    ∀ n, WF G (mctsRun G Q beta explore b p sigma eta n).arena ∧
      AllVisited (mctsRun G Q beta explore b p sigma eta n).arena ∧
      ((mctsRun G Q beta explore b p sigma eta n).arena.getD 0 default).board = b ∧
      VisitSum (mctsRun G Q beta explore b p sigma eta n).arena
        = (if G.isFinal b = true then 0 else n) := by
  intro n
  induction n with
  | zero =>
    refine ⟨⟨?_, ?_, ?_, ?_, ?_, ?_, ?_, ?_⟩, ?_, ?_, ?_⟩
    · simp [mctsRun, mctsInit]
    · simp [mctsRun, mctsInit, mkNode]
    · intro i h0 hi
      simp [mctsRun, mctsInit] at hi
      omega
    · intro i q hi hq
      simp [mctsRun, mctsInit] at hi
      subst hi
      simp [mctsRun, mctsInit, mkNode] at hq
    · intro i ac hi hac
      simp [mctsRun, mctsInit] at hi
      subst hi
      simp [mctsRun, mctsInit, mkNode] at hac
    · intro i ac hi hac
      simp [mctsRun, mctsInit] at hi
      subst hi
      simp [mctsRun, mctsInit, mkNode] at hac
    · intro i hi
      simp [mctsRun, mctsInit] at hi
      subst hi
      simp [mctsRun, mctsInit, mkNode]
    · intro i hi hfin hunt
      simp [mctsRun, mctsInit] at hi
      subst hi
      simp only [mctsRun, mctsInit, mkNode] at hfin hunt
      simp only [List.getD_cons_zero] at hfin hunt
      exact absurd hunt (hG b hfin)
    · intro i ac hi hac
      simp [mctsRun, mctsInit] at hi
      subst hi
      simp [mctsRun, mctsInit, mkNode] at hac
    · simp [mctsRun, mctsInit, mkNode]
    · simp [mctsRun, mctsInit, mkNode, VisitSum]
  | succ n ih =>
    obtain ⟨hwf, hav, hboard, hsum⟩ := ih
    have hstep := mctsIter_invariant G Q beta explore p sigma eta hG
      (mctsRun G Q beta explore b p sigma eta n) hwf hav
    obtain ⟨hwf', hav', hboard', hsum'⟩ := hstep
    have hrun : mctsRun G Q beta explore b p sigma eta (n + 1)
        = mctsIter G Q beta explore p sigma eta (mctsRun G Q beta explore b p sigma eta n) := rfl
    rw [hrun]
    refine ⟨hwf', hav', by rw [hboard', hboard], ?_⟩
    rw [hsum', hsum, hboard]
    by_cases hfin : G.isFinal b = true
    · rw [if_pos hfin, if_pos hfin, if_pos hfin]
    · rw [if_neg hfin, if_neg hfin, if_neg hfin]

/-- C4.  At the end of a search episode of n simulations, the root
children's visit counts sum to n minus the number of iterations whose
selected node was already terminal at the start of the iteration: an
iteration selects an already-terminal node at its start exactly when the
root itself is terminal (then every iteration does, and no child is ever
created), so the subtracted count is n for a terminal root and 0 otherwise;
in particular, for a non-terminal root — which by the board contract always
has a legal move — every iteration adds exactly one visit to exactly one
root child, and the total is exactly n. -/
theorem mcts_root_visit_sum (G : Game) (Q : QTable) (beta : ℚ)
    (explore : Nat → Nat → ℚ) (b : Board) (p : Int) (sigma eta : Nat → Nat)
    (n : Nat) (hG : NoStuck G) :
    VisitSum (mctsRun G Q beta explore b p sigma eta n).arena
      = n - (if G.isFinal b = true then n else 0) ∧
    (G.isFinal b = false →
      VisitSum (mctsRun G Q beta explore b p sigma eta n).arena = n) := by
  obtain ⟨_, _, _, hsum⟩ := mctsRun_invariant G Q beta explore b p sigma eta hG n
  constructor
  · rw [hsum]
    by_cases hfin : G.isFinal b = true
    · rw [if_pos hfin, if_pos hfin]
      omega
    · rw [if_neg hfin, if_neg hfin]
      omega
  · intro hfin
    rw [hsum, hfin]
    rfl

/-- Witness for C4: two simulations from the empty board give the root's
children two visits in total. -/
theorem mcts_root_visit_sum_witness :
    connect4.isFinal emptyBoard = false ∧
    VisitSum (mctsRun connect4 [] (7/10) explore0 emptyBoard (-1) sigma0 etaA 2).arena = 2 :=
  ⟨by decide,
    (mcts_root_visit_sum connect4 [] (7/10) explore0 emptyBoard (-1) sigma0 etaA 2
      connect4_noStuck).2 (by decide)⟩

/-- C10.  After any number of _mcts iterations — hence at every selection
step, which scores children against the iteration-start arena — every
recorded child of every node has at least one visit: a child expanded in an
iteration is visited by that iteration's backpropagation before its parent
can become fully expanded.  Consequently child.value / child.visits always
divides by a positive count and the zero-visit plus-infinity branch of
best_child is never taken from the search loop. -/
theorem selection_children_visited (G : Game) (Q : QTable) (beta : ℚ)
    (explore : Nat → Nat → ℚ) (b : Board) (p : Int) (sigma eta : Nat → Nat)
    (n : Nat) (hG : NoStuck G) :
    ∀ i ac, i < (mctsRun G Q beta explore b p sigma eta n).arena.length →
      ac ∈ ((mctsRun G Q beta explore b p sigma eta n).arena.getD i default).children →
      1 ≤ ((mctsRun G Q beta explore b p sigma eta n).arena.getD ac.2 default).visits ∧
      childScore Q beta explore
        ((mctsRun G Q beta explore b p sigma eta n).arena.getD i default) ac.1
        ((mctsRun G Q beta explore b p sigma eta n).arena.getD ac.2 default)
        ≠ Score.inf := by
  obtain ⟨_, hav, _, _⟩ := mctsRun_invariant G Q beta explore b p sigma eta hG n
  intro i ac hi hac
  have h1 := hav i ac hi hac
  refine ⟨h1, ?_⟩
  unfold childScore
  rw [if_pos (by omega :
    ((mctsRun G Q beta explore b p sigma eta n).arena.getD ac.2 default).visits > 0)]
  intro h
  cases h

/-- Witness for C10: after two simulations from the empty board the first
root child is recorded and has a visit. -/
theorem selection_children_visited_witness :
    ((0, 1) ∈ ((mctsRun connect4 [] (7/10) explore0 emptyBoard (-1) sigma0 etaA 2).arena.getD 0 default).children) ∧
    1 ≤ ((mctsRun connect4 [] (7/10) explore0 emptyBoard (-1) sigma0 etaA 2).arena.getD 1 default).visits :=
  ⟨by decide,
    (selection_children_visited connect4 [] (7/10) explore0 emptyBoard (-1) sigma0 etaA 2
      connect4_noStuck 0 (0, 1) (by decide) (by decide)).1⟩

/-- Helper: one _mcts iteration splits into the selection loop followed by
the selection-independent tail mctsIterAt. -/
theorem mctsIter_split (G : Game) (Q : QTable) (beta : ℚ)
    (explore : Nat → Nat → ℚ) (rootPlayer : Int) (sigma eta : Nat → Nat)
    (st : MState) :
    mctsIter G Q beta explore rootPlayer sigma eta st =
      mctsIterAt G rootPlayer sigma st
        (selectLoop G Q beta explore st.arena eta (st.arena.length + 1) 0 st.t).1
        (selectLoop G Q beta explore st.arena eta (st.arena.length + 1) 0 st.t).2 := by
  rcases hsel : selectLoop G Q beta explore st.arena eta (st.arena.length + 1) 0 st.t
    with ⟨selIdx, t'⟩
  simp only [mctsIter, mctsIterAt, hsel]

/-- Helper: an iteration whose root is terminal or not yet fully expanded
never reaches best_child, so its outcome does not depend on the exploration
term or on the tie-break entropy stream. -/
theorem mctsIter_indep (G : Game) (Q : QTable) (beta : ℚ)
    (e eB : Nat → Nat → ℚ) (rootPlayer : Int) (sigma eta etaP : Nat → Nat)
    (st : MState)
    (hcond : (!G.isFinal (st.arena.getD 0 default).board &&
        (st.arena.getD 0 default).untried.isEmpty) = false) :
    mctsIter G Q beta e rootPlayer sigma eta st =
      mctsIter G Q beta eB rootPlayer sigma etaP st := by
  have hsel : ∀ (ee : Nat → Nat → ℚ) (et : Nat → Nat),
      selectLoop G Q beta ee st.arena et (st.arena.length + 1) 0 st.t = (0, st.t) := by
    intro ee et
    simp only [selectLoop, hcond, Bool.false_eq_true, if_false]
  rw [mctsIter_split G Q beta e rootPlayer sigma eta st,
      mctsIter_split G Q beta eB rootPlayer sigma etaP st,
      hsel e eta, hsel eB etaP]

set_option maxRecDepth 16000 in
/-- Helper: the first seven iterations under sigma0 from the empty board
never reach best_child (the root is never yet fully expanded), so they
yield state7 whatever the exploration term and the entropy stream. -/
theorem mctsRun_state7 (e : Nat → Nat → ℚ) (eta : Nat → Nat) :
    mctsRun connect4 [] (7 / 10) e emptyBoard (-1) sigma0 eta 7 = state7 := by
  have hconds : ∀ k, k < 7 →
      (!connect4.isFinal ((mctsRun connect4 [] (7 / 10) explore0 emptyBoard
          (-1) sigma0 etaA k).arena.getD 0 default).board &&
        ((mctsRun connect4 [] (7 / 10) explore0 emptyBoard
          (-1) sigma0 etaA k).arena.getD 0 default).untried.isEmpty) = false := by
    decide
  have main : ∀ k, k ≤ 7 →
      mctsRun connect4 [] (7 / 10) e emptyBoard (-1) sigma0 eta k =
        mctsRun connect4 [] (7 / 10) explore0 emptyBoard (-1) sigma0 etaA k := by
    intro k
    induction k with
    | zero => intro _; rfl
    | succ k ih =>
      intro hk
      have hstep : mctsRun connect4 [] (7 / 10) e emptyBoard (-1) sigma0 eta (k + 1) =
          mctsIter connect4 [] (7 / 10) e (-1) sigma0 eta
            (mctsRun connect4 [] (7 / 10) e emptyBoard (-1) sigma0 eta k) := rfl
      have hstepA : mctsRun connect4 [] (7 / 10) explore0 emptyBoard (-1) sigma0 etaA (k + 1) =
          mctsIter connect4 [] (7 / 10) explore0 (-1) sigma0 etaA
            (mctsRun connect4 [] (7 / 10) explore0 emptyBoard (-1) sigma0 etaA k) := rfl
      rw [hstep, hstepA, ih (Nat.le_of_succ_le hk)]
      exact mctsIter_indep connect4 [] (7 / 10) e explore0 (-1) sigma0 eta etaA _
        (hconds k hk)
  exact main 7 (le_refl 7)

/-- Helper: the lazy prior against an empty Q table is 1/2. -/
theorem qGet_nil (k : Key × Nat) : qGet [] k = 1 / 2 := rfl

set_option maxRecDepth 16000 in
/-- Helper: the concrete shape of state7's root: fully expanded with the
seven children in column order, seven visits, non-final board, and no
tie-break draw consumed. -/
theorem state7_root :
    (state7.arena.getD 0 default).children =
      [(0, 1), (1, 2), (2, 3), (3, 4), (4, 5), (5, 6), (6, 7)] ∧
    (state7.arena.getD 0 default).untried.isEmpty = true ∧
    connect4.isFinal (state7.arena.getD 0 default).board = false ∧
    (state7.arena.getD 0 default).visits = 7 ∧
    state7.t = 0 := by
  refine ⟨by decide, by decide, by decide, by decide, by decide⟩

set_option maxRecDepth 16000 in
/-- Helper: each of state7's seven children has exactly one visit. -/
theorem state7_child_visits :
    ∀ i, i < 8 → 1 ≤ i → (state7.arena.getD i default).visits = 1 := by
  decide

set_option maxRecDepth 16000 in
/-- Helper: every rollout of the first seven iterations under sigma0 ends in
a yellow win, so each child's accumulated value is the initial 0 plus a
zero reward. -/
theorem state7_values :
    ((state7.arena.getD 1 default).value, (state7.arena.getD 2 default).value,
     (state7.arena.getD 3 default).value, (state7.arena.getD 4 default).value,
     (state7.arena.getD 5 default).value, (state7.arena.getD 6 default).value,
     (state7.arena.getD 7 default).value) =
    (0 + 0, 0 + 0, 0 + 0, 0 + 0, 0 + 0, 0 + 0, 0 + 0) := rfl

/-- Helper: the score of a once-visited child against an empty Q table. -/
theorem childScore_eval (beta : ℚ) (e : Nat → Nat → ℚ)
    (parent child : MNode) (a : Nat) (r : ℚ)
    (hv : child.visits = 1) (hval : child.value = r) :
    childScore [] beta e parent a child =
      Score.val ((1 - beta) * (1 / 2) + beta * (r + e parent.visits 1)) := by
  simp only [childScore, hv, hval, qGet_nil]
  norm_num

/-- Helper: once the running best score equals the common score val X of
every remaining child, the best_child fold appends every remaining child
index in order. -/
theorem bestChildFold_const (Q : QTable) (beta : ℚ) (e : Nat → Nat → ℚ)
    (parent : MNode) (arena : Arena) (X : ℚ)
    (l : List (Nat × Nat)) (acc : List Nat)
    (hall : ∀ ac ∈ l,
      childScore Q beta e parent ac.1 (arena.getD ac.2 default) = Score.val X) :
    l.foldl
      (fun acc ac =>
        let sc := childScore Q beta e parent ac.1 (arena.getD ac.2 default)
        if sc.gtB acc.1 then (sc, [ac.2])
        else if sc.beq acc.1 then (acc.1, acc.2 ++ [ac.2])
        else acc)
      (Score.val X, acc) = (Score.val X, acc ++ l.map (fun ac => ac.2)) := by
  have hgt : Score.gtB (Score.val X) (Score.val X) = false := by
    simp [Score.gtB]
  have hbq : Score.beq (Score.val X) (Score.val X) = true := by
    simp [Score.beq]
  induction l generalizing acc with
  | nil => simp
  | cons hd tl ih =>
    have hhd := hall hd (List.mem_cons_self hd tl)
    rw [List.foldl_cons]
    simp only [hhd, hgt, hbq, Bool.false_eq_true, if_false, eq_self_iff_true, if_true]
    rw [ih (acc ++ [hd.2]) (fun ac hac => hall ac (List.mem_cons_of_mem hd hac))]
    simp

set_option maxRecDepth 16000 in
/-- Helper: at state7 all seven root children carry the same score whatever
the exploration term, so best_nodes is the full list of child indices. -/
theorem state7_bestChildList (e : Nat → Nat → ℚ) :
    bestChildList [] (7 / 10) e (state7.arena.getD 0 default) state7.arena =
      [1, 2, 3, 4, 5, 6, 7] := by
  obtain ⟨hch, _, _, _, _⟩ := state7_root
  have hvals := state7_values
  simp only [Prod.mk.injEq] at hvals
  obtain ⟨w1, w2, w3, w4, w5, w6, w7⟩ := hvals
  have v1 := state7_child_visits 1 (by norm_num) (by norm_num)
  have v2 := state7_child_visits 2 (by norm_num) (by norm_num)
  have v3 := state7_child_visits 3 (by norm_num) (by norm_num)
  have v4 := state7_child_visits 4 (by norm_num) (by norm_num)
  have v5 := state7_child_visits 5 (by norm_num) (by norm_num)
  have v6 := state7_child_visits 6 (by norm_num) (by norm_num)
  have v7 := state7_child_visits 7 (by norm_num) (by norm_num)
  have hall : ∀ ac ∈ [(1, 2), (2, 3), (3, 4), (4, 5), (5, 6), (6, 7)],
      childScore [] (7 / 10) e (state7.arena.getD 0 default) ac.1
        (state7.arena.getD ac.2 default) =
      Score.val ((1 - 7 / 10) * (1 / 2) +
        (7 / 10) * ((0 + 0) + e (state7.arena.getD 0 default).visits 1)) := by
    intro ac hac
    simp only [List.mem_cons, List.not_mem_nil, or_false] at hac
    rcases hac with h | h | h | h | h | h <;> subst h
    · exact childScore_eval (7 / 10) e _ _ 1 (0 + 0) v2 w2
    · exact childScore_eval (7 / 10) e _ _ 2 (0 + 0) v3 w3
    · exact childScore_eval (7 / 10) e _ _ 3 (0 + 0) v4 w4
    · exact childScore_eval (7 / 10) e _ _ 4 (0 + 0) v5 w5
    · exact childScore_eval (7 / 10) e _ _ 5 (0 + 0) v6 w6
    · exact childScore_eval (7 / 10) e _ _ 6 (0 + 0) v7 w7
  have hfe1 := childScore_eval (7 / 10) e (state7.arena.getD 0 default)
    (state7.arena.getD 1 default) 0 (0 + 0) v1 w1
  have hvn : ∀ q : ℚ, Score.gtB (Score.val q) Score.ninf = true := fun q => rfl
  unfold bestChildList
  rw [hch]
  rw [List.foldl_cons]
  simp only [hfe1, hvn, eq_self_iff_true, if_true]
  rw [bestChildFold_const [] (7 / 10) e (state7.arena.getD 0 default)
    state7.arena ((1 - 7 / 10) * (1 / 2) +
      (7 / 10) * ((0 + 0) + e (state7.arena.getD 0 default).visits 1))
    [(1, 2), (2, 3), (3, 4), (4, 5), (5, 6), (6, 7)] [1] hall]
  rfl

set_option maxRecDepth 16000 in
set_option maxHeartbeats 1600000 in
/-- Helper: at state7 under entropy etaA the selection loop descends exactly
once, to child 1: the fresh tie-break draw 0 picks the first of the seven
tied children, and child 1 still has untried actions. -/
theorem state7_selectA (e : Nat → Nat → ℚ) :
    selectLoop connect4 [] (7 / 10) e state7.arena etaA
      (state7.arena.length + 1) 0 state7.t = (1, 1) := by
  obtain ⟨_, hunt, hfin, _, ht⟩ := state7_root
  have hcond1 : (!connect4.isFinal (state7.arena.getD 1 default).board &&
      (state7.arena.getD 1 default).untried.isEmpty) = false := by decide
  have hbc : best_child [] (7 / 10) e (state7.arena.getD 0 default)
      state7.arena (etaA 0) = 1 := by
    unfold best_child
    rw [state7_bestChildList e]
    rfl
  rw [ht]
  simp only [selectLoop, hfin, hunt, Bool.not_false, Bool.and_self,
    eq_self_iff_true, if_true, hbc, hcond1, Bool.false_eq_true, if_false]

set_option maxRecDepth 16000 in
set_option maxHeartbeats 1600000 in
/-- Helper: at state7 under entropy etaB the selection loop descends exactly
once, to child 2: the fresh tie-break draw 1 picks the second of the seven
tied children, and child 2 still has untried actions. -/
theorem state7_selectB (e : Nat → Nat → ℚ) :
    selectLoop connect4 [] (7 / 10) e state7.arena etaB
      (state7.arena.length + 1) 0 state7.t = (2, 1) := by
  obtain ⟨_, hunt, hfin, _, ht⟩ := state7_root
  have hcond2 : (!connect4.isFinal (state7.arena.getD 2 default).board &&
      (state7.arena.getD 2 default).untried.isEmpty) = false := by decide
  have hbc : best_child [] (7 / 10) e (state7.arena.getD 0 default)
      state7.arena (etaB 0) = 2 := by
    unfold best_child
    rw [state7_bestChildList e]
    rfl
  rw [ht]
  simp only [selectLoop, hfin, hunt, Bool.not_false, Bool.and_self,
    eq_self_iff_true, if_true, hbc, hcond2, Bool.false_eq_true, if_false]

set_option maxRecDepth 16000 in
set_option maxHeartbeats 1600000 in
/-- Helper: with the policy-owned stream sigma0 and tie-break entropy etaA,
act from the empty board returns column 0, whatever the exploration term:
the eighth simulation descends into child 1, whose action 0 then leads the
root visit counts. -/
theorem act_emptyA (e : Nat → Nat → ℚ) :
    act connect4 8 (3 / 10) (7 / 10) e [] sigma0 etaA emptyBoard = 0 := by
  have h8 : mctsRun connect4 [] (7 / 10) e emptyBoard (-1) sigma0 etaA 8 =
      mctsIterAt connect4 (-1) sigma0 state7 1 1 := by
    have hr : mctsRun connect4 [] (7 / 10) e emptyBoard (-1) sigma0 etaA 8 =
        mctsIter connect4 [] (7 / 10) e (-1) sigma0 etaA
          (mctsRun connect4 [] (7 / 10) e emptyBoard (-1) sigma0 etaA 7) := rfl
    rw [hr, mctsRun_state7 e etaA, mctsIter_split]
    rw [state7_selectA e]
  have hwm : winning_move connect4 emptyBoard (currentPlayer emptyBoard)
      (currentPlayer emptyBoard) = none := by decide
  have hbe : block_enemy connect4 emptyBoard (currentPlayer emptyBoard) = none := by
    decide
  have hqs : qStage [] emptyBoard (connect4.freeCols emptyBoard)
      (connect4.applicable emptyBoard) = none := rfl
  have hcp : currentPlayer emptyBoard = -1 := by decide
  rw [act_reduce connect4 8 (3 / 10) (7 / 10) e [] sigma0 etaA emptyBoard
    (by decide) (by decide)]
  simp only [hwm, hbe, hqs, legalize, hcp]
  simp only [mcts]
  rw [h8]
  decide

set_option maxRecDepth 16000 in
set_option maxHeartbeats 1600000 in
/-- Helper: with the same policy-owned stream sigma0 but tie-break entropy
etaB, act from the empty board returns column 1, whatever the exploration
term: the eighth simulation descends into child 2 instead. -/
theorem act_emptyB (e : Nat → Nat → ℚ) :
    act connect4 8 (3 / 10) (7 / 10) e [] sigma0 etaB emptyBoard = 1 := by
  have h8 : mctsRun connect4 [] (7 / 10) e emptyBoard (-1) sigma0 etaB 8 =
      mctsIterAt connect4 (-1) sigma0 state7 2 1 := by
    have hr : mctsRun connect4 [] (7 / 10) e emptyBoard (-1) sigma0 etaB 8 =
        mctsIter connect4 [] (7 / 10) e (-1) sigma0 etaB
          (mctsRun connect4 [] (7 / 10) e emptyBoard (-1) sigma0 etaB 7) := rfl
    rw [hr, mctsRun_state7 e etaB, mctsIter_split]
    rw [state7_selectB e]
  have hwm : winning_move connect4 emptyBoard (currentPlayer emptyBoard)
      (currentPlayer emptyBoard) = none := by decide
  have hbe : block_enemy connect4 emptyBoard (currentPlayer emptyBoard) = none := by
    decide
  have hqs : qStage [] emptyBoard (connect4.freeCols emptyBoard)
      (connect4.applicable emptyBoard) = none := rfl
  have hcp : currentPlayer emptyBoard = -1 := by decide
  rw [act_reduce connect4 8 (3 / 10) (7 / 10) e [] sigma0 etaB emptyBoard
    (by decide) (by decide)]
  simp only [hwm, hbe, hqs, legalize, hcp]
  simp only [mcts]
  rw [h8]
  decide

/-- C8 counterexample.  Two invocations of act from the empty starting
board with identical configuration (8 simulations, alpha 3/10, beta 7/10,
the same exploration term), the same pre-loaded Q table and the SAME seeded
policy-owned generator (stream sigma0) return different columns — 0 versus
1 — when the fresh unseeded tie-break generator created inside
Node.best_child (policy.py line 100) draws 0 versus 1: seeding the
policy-owned generator does not make the decision procedure
deterministic. -/
theorem act_seed_determinism_counterexample :
    act connect4 8 (3 / 10) (7 / 10) explore0 [] sigma0 etaA emptyBoard = 0 ∧
    act connect4 8 (3 / 10) (7 / 10) explore0 [] sigma0 etaB emptyBoard = 1 :=
  ⟨act_emptyA explore0, act_emptyB explore0⟩

/-- C8 (amended).  The pre-MCTS stages of the decision entry point are
deterministic without any seed at all: from the empty starting board, with
identical configuration and an identical pre-loaded Q table whose
direct-lookup stage yields a move, two invocations of act return that same
move whatever the policy-owned streams and whatever the tie-break
entropies, because act answers from the Q table before any random draw is
consumed.  (The claim as stated is false: inside the MCTS stage,
Node.best_child breaks ties with a fresh unseeded generator — policy.py
line 100 — that the fixed seed does not control; see the counterexample.) -/
theorem act_deterministic_before_mcts (sims : Nat) (alpha beta : ℚ)
    (e1 e2 : Nat → Nat → ℚ) (Q : QTable) (sg1 sg2 et1 et2 : Nat → Nat) (a : Nat)
    (hq : qStage Q emptyBoard (connect4.freeCols emptyBoard)
      (connect4.applicable emptyBoard) = some a) :
    act connect4 sims alpha beta e1 Q sg1 et1 emptyBoard = a ∧
    act connect4 sims alpha beta e2 Q sg2 et2 emptyBoard = a := by
  have key : ∀ (e : Nat → Nat → ℚ) (sg et : Nat → Nat),
      act connect4 sims alpha beta e Q sg et emptyBoard = a := by
    intro e sg et
    have hwm : winning_move connect4 emptyBoard (currentPlayer emptyBoard)
        (currentPlayer emptyBoard) = none := by decide
    have hbe : block_enemy connect4 emptyBoard
        (currentPlayer emptyBoard) = none := by decide
    rw [act_reduce connect4 sims alpha beta e Q sg et emptyBoard
      (by decide) (by decide)]
    simp only [hwm, hbe, legalize, hq]
  exact ⟨key e1 sg1 et1, key e2 sg2 et2⟩

/-- Witness for the amended C8 on a concrete one-entry table for the empty
board: both invocations return column 3 regardless of either stream. -/
theorem act_deterministic_before_mcts_witness :
    qStage [((emptyBoard, 3), 9 / 10)] emptyBoard (connect4.freeCols emptyBoard)
      (connect4.applicable emptyBoard) = some 3 ∧
    (act connect4 8 (3 / 10) (7 / 10) explore0 [((emptyBoard, 3), 9 / 10)]
        sigma0 etaA emptyBoard = 3 ∧
      act connect4 8 (3 / 10) (7 / 10) explore0 [((emptyBoard, 3), 9 / 10)]
        sigma0 etaB emptyBoard = 3) :=
  ⟨by decide,
    act_deterministic_before_mcts 8 (3 / 10) (7 / 10) explore0 explore0
      [((emptyBoard, 3), 9 / 10)] sigma0 sigma0 etaA etaB 3 (by decide)⟩
